import Mathlib

/-! Triangulation utilities of the SDK header `triangulate.h`.

A shallow embedding of `MaxSDK::BufferProxy` (a strided view over raw memory), of
`MaxSDK::SortPolygonDiagonals`, `MaxSDK::GetTriangles`, `MaxSDK::BestConvexDiagonals` and
`MaxSDK::FindDiagonals`, of `fnv1a_hash_bytes` of the header `Util/fnv1a.hpp`, and of the
flag members of `MSPlugin` of the header `maxscript/mxsplugin/mxsPlugin.h`, together with the
properties stated about them.

Conventions of the embedding:

* a pointer is its address, a natural number; `nullptr` is address `0`;
* `size_t` values are natural numbers, and arithmetic on them is reduced modulo `2 ^ w`
  where the source computes in machine words (`w` is the pointer width);
* `intptr_t` values are integers in the two's complement range of width `w`;
* `int` buffers are lists of integers; a `short` is given by its 16 bits;
* the header only declares the triangulation functions; their models follow the
  specification, and every test on vertex positions is a parameter of the model.
-/

namespace MaxSDK

/-! ## Machine words -/

/-- Conversion of an integer to `size_t` of width `w`: reduction modulo `2 ^ w`. -/
def toSizeT (w : Nat) (x : Int) : Nat :=
  (x % (2 : Int) ^ w).toNat

/-- Conversion of a natural number to `intptr_t` of width `w` (two's complement):
this is what `reinterpret_cast<intptr_t>` and the unsigned-to-signed conversion yield. -/
def toIntptr (w : Nat) (n : Nat) : Int :=
  if n % 2 ^ w < 2 ^ (w - 1) then ((n % 2 ^ w : Nat) : Int)
  else ((n % 2 ^ w : Nat) : Int) - (2 : Int) ^ w

/-! ## `BufferProxy` -/

/-- The three data members of `BufferProxy<ElementType>`. -/
structure BufferProxy where
  /-- The address of the first element of the buffer (`0` is `nullptr`). -/
  mData : Nat
  /-- The number of elements contained in the buffer. -/
  mNumElements : Nat
  /-- Each element in the buffer is `mStride` bytes apart. -/
  mStride : Nat
  deriving DecidableEq, Repr

namespace BufferProxy

/-- The default constructor `BufferProxy()`: `mData(nullptr), mNumElements(0), mStride(0)`. -/
def default : BufferProxy :=
  { mData := 0, mNumElements := 0, mStride := 0 }

/-- The constructor `BufferProxy(data, numElements, stride)` with all three arguments given. -/
def new (data numElements stride : Nat) : BufferProxy :=
  { mData := data, mNumElements := numElements, mStride := stride }

/-- The constructor `BufferProxy(data, numElements)` with the stride argument omitted:
the default argument is `sizeof(ElementType)`, here the parameter `sizeofElement`. -/
def newDefaultStride (sizeofElement : Nat) (data numElements : Nat) : BufferProxy :=
  new data numElements sizeofElement

/-- The member `Count()`: `return mNumElements;`. -/
def Count (bp : BufferProxy) : Nat :=
  bp.mNumElements

/-- The member `Stride()`: `return mStride;`. -/
def Stride (bp : BufferProxy) : Nat :=
  bp.mStride

/-- The member `IsValid()`: `return mData != nullptr;`. -/
def IsValid (bp : BufferProxy) : Bool :=
  bp.mData != 0

/-- The member `IsEmpty()`: `return mNumElements != 0;`. -/
def IsEmpty (bp : BufferProxy) : Bool :=
  bp.mNumElements != 0

end BufferProxy

/-- Modelled from the spec: the assertion `DbgAssert` used by `operator[]` is not defined in
the available sources. The specification says that violations of the access precondition
fail fast in development builds and are unchecked in the reference design otherwise.
`dbg` tells whether assertions are compiled in; the result tells whether execution goes on. -/
def DbgAssert (dbg : Bool) (expr : Bool) : Bool :=
  !dbg || expr

/-- The outcome of an element access. -/
inductive Access where
  /-- The debug assertion stopped the access. -/
  | assertionFailed : Access
  /-- The element at byte address `addr` is dereferenced. -/
  | deref (addr : Nat) : Access
  deriving DecidableEq, Repr

namespace BufferProxy

/-- The member `ElementType& operator[](size_t i)`:
`DbgAssert(IsValid() && i < mNumElements); rawData = (intptr_t) mData;`
`elementPtr = rawData + (i * mStride); return *(ElementType*) elementPtr;`.
The product is a `size_t` product; the sum of an `intptr_t` and a `size_t` is computed
as `size_t` and stored back in an `intptr_t`. -/
def operatorIndex (w : Nat) (dbg : Bool) (bp : BufferProxy) (i : Nat) : Access :=
  if DbgAssert dbg (bp.IsValid && decide (i < bp.mNumElements)) then
    let rawData : Int := toIntptr w bp.mData
    let elementPtr : Int := toIntptr w ((toSizeT w rawData + (i * bp.mStride) % 2 ^ w) % 2 ^ w)
    Access.deref (toSizeT w elementPtr)
  else
    Access.assertionFailed

/-- The member `const ElementType& operator[](size_t i) const`, with the same body as the
non-const overload. -/
def operatorIndexConst (w : Nat) (dbg : Bool) (bp : BufferProxy) (i : Nat) : Access :=
  if DbgAssert dbg (bp.IsValid && decide (i < bp.mNumElements)) then
    let rawData : Int := toIntptr w bp.mData
    let elementPtr : Int := toIntptr w ((toSizeT w rawData + (i * bp.mStride) % 2 ^ w) % 2 ^ w)
    Access.deref (toSizeT w elementPtr)
  else
    Access.assertionFailed

end BufferProxy

/-! ## `SortPolygonDiagonals` -/

/-- The diagonals stored in a flat `int` buffer: each consecutive pair of entries is one
diagonal; a trailing single entry belongs to no diagonal. -/
def toPairs : List Int → List (Int × Int)
  | a :: b :: rest => (a, b) :: toPairs rest
  | _ => []

/-- The flat buffer holding the given diagonals one after the other. -/
def flatten : List (Int × Int) → List Int
  | [] => []
  | p :: ps => p.1 :: p.2 :: flatten ps

/-- The first `n` diagonals of a flat buffer (fewer when the buffer is shorter). -/
def pairsOf : Nat → List Int → List (Int × Int)
  | n + 1, a :: b :: rest => (a, b) :: pairsOf n rest
  | _, _ => []

/-- The entries of a flat buffer that follow its first `n` diagonals. -/
def restOf : Nat → List Int → List Int
  | n + 1, _ :: _ :: rest => restOf n rest
  | _, l => l

/-- Canonical form of one diagonal: the smaller vertex index first. -/
def canonical (p : Int × Int) : Int × Int :=
  if p.2 < p.1 then (p.2, p.1) else p

/-- The order of the sorted diagonal list: ascending second index and, for equal second
index, descending first index. -/
def diagLE (p q : Int × Int) : Prop :=
  p.2 < q.2 ∨ (p.2 = q.2 ∧ q.1 ≤ p.1)

instance diagLE.decidableRel : DecidableRel diagLE :=
  fun p q => inferInstanceAs (Decidable (p.2 < q.2 ∨ (p.2 = q.2 ∧ q.1 ≤ p.1)))

/-- Modelled from the spec: the body of `SortPolygonDiagonals(int dnum, int* diag)` is not in
the available sources, only its declaration. Following the specification, the buffer holds
`dnum` integers, that is `dnum / 2` diagonals; each diagonal is put in canonical form
(smaller index first) and the diagonals are then sorted by ascending second index and, for
equal second index, by descending first index. Entries after the `dnum / 2` diagonals are
left as they are. The result is the content of the buffer after the call. -/
def SortPolygonDiagonals (dnum : Nat) (diag : List Int) : List Int :=
  flatten (List.insertionSort diagLE ((pairsOf (dnum / 2) diag).map canonical))
    ++ restOf (dnum / 2) diag

/-- The multiset of unordered diagonals `{a, b}` stored in a flat buffer. -/
def diagonalSet (diag : List Int) : Multiset (Sym2 Int) :=
  Multiset.ofList ((toPairs diag).map Sym2.mk)

/-- The diagonal list documented for a 9-gon: `(1,3),(0,3),(0,4),(5,7),(4,7),(4,8)`. -/
def nineGonDiagonals : List Int :=
  [1, 3, 0, 3, 0, 4, 5, 7, 4, 7, 4, 8]

/-! ## `GetTriangles` -/

/-- The triangles stored in a flat table: each three consecutive entries are one triangle. -/
def toTriples : List Int → List (Int × Int × Int)
  | a :: b :: c :: rest => (a, b, c) :: toTriples rest
  | _ => []

/-- The flat table holding the given triangles one after the other, 3 entries each. -/
def flattenTriples : List (Int × Int × Int) → List Int
  | [] => []
  | t :: ts => t.1 :: t.2.1 :: t.2.2 :: flattenTriples ts

/-- The state of the walk of `GetTriangles` along the polygon boundary. -/
structure Walk where
  /-- The next boundary vertex to visit. -/
  v : Nat
  /-- The sorted diagonals not yet used, followed by the closing boundary edge. -/
  chords : List (Int × Int)
  /-- The active boundary vertices, the most recent one first. -/
  stack : List Int
  /-- The triangle indices emitted so far. -/
  tri : List Int
  deriving DecidableEq, Repr

/-- One step of the walk at boundary vertex `v`: when the next diagonal (or the closing
boundary edge) ends at `v`, it closes a triangle with the most recent active vertex, which is
emitted and leaves the active vertices; otherwise `v` becomes active and the walk moves to the
next boundary vertex. The walk stands still once all `deg` vertices are visited. -/
def walkStep (deg : Nat) (s : Walk) : Walk :=
  if s.v < deg then
    match s.chords, s.stack with
    | (a, b) :: rest, m :: below =>
      if b = (s.v : Int) then
        { v := s.v, chords := rest, stack := below, tri := s.tri ++ [a, m, b] }
      else
        { v := s.v + 1, chords := s.chords, stack := (s.v : Int) :: s.stack, tri := s.tri }
    | _, _ =>
      { v := s.v + 1, chords := s.chords, stack := (s.v : Int) :: s.stack, tri := s.tri }
  else s

/-- The effect of `Tab<int>::SetCount(n)`: the table gets `n` entries, keeping the entries
it had; entries that are new are modelled as 0. -/
def setCount (n : Nat) (tab : List Int) : List Int :=
  (tab ++ List.replicate (n - tab.length) 0).take n

/-- Modelled from the spec: the body of `GetTriangles(int deg, int* diag, Tab<int>& tri)` is
not in the available sources, only its declaration. Following the specification, the table
is set to size `(deg - 2) * 3`; for `deg == 3` the triangle `(0,1,2)` is emitted directly;
otherwise the polygon boundary `0, ..., deg - 1` and the `deg - 3` sorted diagonals are
walked in lockstep in a single pass, keeping a stack of active boundary vertices, and each
diagonal, and at last the boundary edge `(0, deg - 1)`, emits the triangle it closes. The
emitted indices are written to the table from its start. The result is the table after the
call. -/
def GetTriangles (deg : Nat) (diag : List Int) (tri : List Int) : List Int :=
  if deg = 3 then [0, 1, 2]
  else
    let chords := pairsOf (deg - 3) diag ++ [((0 : Int), ((deg - 1 : Nat) : Int))]
    let final := (walkStep deg)^[deg + chords.length]
      { v := 0, chords := chords, stack := [], tri := [] }
    (final.tri ++ (setCount ((deg - 2) * 3) tri).drop final.tri.length).take ((deg - 2) * 3)

/-- A triangulation of a polygon, as the binary tree of its triangles seen from one side
`(a, b)` of the polygon: a side that is a boundary edge has nothing behind it, and any other
side has a triangle `(a, m, b)` behind it, with the triangulations behind `(a, m)` and
behind `(m, b)`. -/
inductive Triangulation where
  /-- A boundary edge `(a, a + 1)`. -/
  | edge : Triangulation
  /-- The triangle behind a side, with what lies behind its two other sides. -/
  | node (left right : Triangulation) : Triangulation
  deriving DecidableEq, Repr

namespace Triangulation

/-- The number of boundary edges behind the side: `b - a` for the side `(a, b)`. -/
def span : Triangulation → Nat
  | edge => 1
  | node l r => span l + span r

/-- The number of triangles behind the side. -/
def triangleCount : Triangulation → Nat
  | edge => 0
  | node l r => triangleCount l + triangleCount r + 1

/-- The sides `(a, b)` that are not boundary edges, behind and including the side starting at
vertex `a`, listed triangle by triangle: first behind `(a, m)`, then behind `(m, b)`, then
`(a, b)` itself. -/
def chordsFrom (a : Nat) : Triangulation → List (Int × Int)
  | edge => []
  | node l r =>
    chordsFrom a l ++ chordsFrom (a + span l) r
      ++ [(((a : Nat) : Int), ((a + span l + span r : Nat) : Int))]

/-- The triangles `(a, m, b)` behind the side starting at vertex `a`, in the same order. -/
def trianglesFrom (a : Nat) : Triangulation → List (Int × Int × Int)
  | edge => []
  | node l r =>
    trianglesFrom a l ++ trianglesFrom (a + span l) r
      ++ [(((a : Nat) : Int), ((a + span l : Nat) : Int), ((a + span l + span r : Nat) : Int))]

/-- The diagonal buffer of a triangulation of the polygon `0, ..., deg - 1` seen from the
boundary edge `(0, deg - 1)`, where `deg = span + 1`: all sides that are not boundary
edges. -/
def diagonals : Triangulation → List Int
  | edge => []
  | node l r => flatten (chordsFrom 0 l ++ chordsFrom (span l) r)

end Triangulation

/-- The diagonal buffers of the triangulations of a polygon of degree `deg`. -/
def TriangulationDiagonals (deg : Nat) (diag : List Int) : Prop :=
  ∃ T : Triangulation, T.span + 1 = deg ∧ T.diagonals = diag

/-- Two diagonals cross when exactly one end of one lies strictly between the ends of the
other. -/
def crosses (p q : Int × Int) : Prop :=
  (p.1 < q.1 ∧ q.1 < p.2 ∧ p.2 < q.2) ∨ (q.1 < p.1 ∧ p.1 < q.2 ∧ q.2 < p.2)

instance crosses.decidableRel : DecidableRel crosses :=
  fun p q => inferInstanceAs
    (Decidable ((p.1 < q.1 ∧ q.1 < p.2 ∧ p.2 < q.2) ∨ (q.1 < p.1 ∧ p.1 < q.2 ∧ q.2 < p.2)))

/-- A valid sorted diagonal list of a polygon of degree `deg`: the buffer holds `deg - 3`
diagonals; each joins two vertices of the polygon that are not neighbours, smaller index
first; no diagonal occurs twice; no two diagonals cross; and the diagonals are in the order
of the diagonal sorter. -/
def ValidSortedDiagonals (deg : Nat) (diag : List Int) : Prop :=
  diag.length = (deg - 3) * 2 ∧
    (∀ p ∈ toPairs diag, 0 ≤ p.1 ∧ p.1 + 2 ≤ p.2 ∧ p.2 < (deg : Int) ∧
      p ≠ ((0 : Int), (deg : Int) - 1)) ∧
    (toPairs diag).Nodup ∧
    List.Pairwise (fun p q => ¬ crosses p q) (toPairs diag) ∧
    List.Sorted diagLE (toPairs diag)

instance ValidSortedDiagonals.decidable (deg : Nat) (diag : List Int) :
    Decidable (ValidSortedDiagonals deg diag) := by
  unfold ValidSortedDiagonals List.Sorted
  infer_instance

/-! ## `BestConvexDiagonals` and `FindDiagonals` -/

/-- Reading element `i` through a `BufferProxy<const T>`: the const `operator[]` followed by
the read of the addressed element, where `memory` gives the element stored at an address.
Nothing is read when the debug assertion stops the access. -/
def BufferProxy.read {α : Type} (w : Nat) (dbg : Bool) (memory : Nat → α) (bp : BufferProxy)
    (i : Nat) : Option α :=
  match bp.operatorIndexConst w dbg i with
  | Access.deref addr => some (memory addr)
  | Access.assertionFailed => none

/-- All the values of a list of reads, when every read gave one. -/
def collect {α : Type} : List (Option α) → Option (List α)
  | [] => some []
  | none :: _ => none
  | some x :: rest => (collect rest).map (fun xs => x :: xs)

/-- Modelled from the spec: the bodies of the diagonal finders are not in the available
sources. The degree of the face is the number of face vertices: the count of the face index
buffer when there is one, and otherwise the count of the vertex buffer. -/
def faceDegree (faceVertexIndices meshVertices : BufferProxy) : Nat :=
  if faceVertexIndices.IsValid then faceVertexIndices.Count else meshVertices.Count

/-- Modelled from the spec: the bodies of the diagonal finders are not in the available
sources. The position of face vertex `i` is read from the vertex buffer at the index that the
face index buffer holds for `i`; face vertices are optional, and when there is no index
buffer the indices are trivial: `0, 1, 2, ...`. -/
def faceVertexPosition {P : Type} (w : Nat) (dbg : Bool) (intAt : Nat → Int) (pointAt : Nat → P)
    (faceVertexIndices meshVertices : BufferProxy) (i : Nat) : Option P :=
  if faceVertexIndices.IsValid then
    (faceVertexIndices.read w dbg intAt i).bind
      (fun k => meshVertices.read w dbg pointAt k.toNat)
  else
    meshVertices.read w dbg pointAt i

/-- Modelled from the spec: the bodies of the diagonal finders are not in the available
sources. The polygon handed to a finder: its vertices `0, ..., deg - 1` in sequence, each
with its position. -/
def facePolygon {P : Type} (w : Nat) (dbg : Bool) (intAt : Nat → Int) (pointAt : Nat → P)
    (faceVertexIndices meshVertices : BufferProxy) : Option (List (Nat × P)) :=
  collect ((List.range (faceDegree faceVertexIndices meshVertices)).map
    (fun i => (faceVertexPosition w dbg intAt pointAt faceVertexIndices meshVertices i).map
      (fun p => (i, p))))

/-- Whether the vertices at places `i < j` of a polygon of `len` vertices are the two ends of
a diagonal: they are not neighbours along the polygon. -/
def properChord (len i j : Nat) : Bool :=
  decide (i + 2 ≤ j) && decide (j < len) && !(i == 0 && j + 1 == len)

/-- The polygon-local index of the vertex at place `i` of a polygon. -/
def localIndex {P : Type} (poly : List (Nat × P)) (i : Nat) : Int :=
  (((poly.map Prod.fst).getD i 0 : Nat) : Int)

/-- Modelled from the spec: the bodies of the diagonal finders are not in the available
sources. Both finders repeatedly pick a diagonal of the polygon at hand, which splits it in
two polygons that are treated in the same way; a polygon of 3 vertices has no diagonal. The
geometric tests on the vertex positions that pick the diagonal are the parameter `choose`,
which gives the places of the two ends of the picked diagonal, or nothing when no acceptable
diagonal is found; the diagonals found so far are kept in that case. -/
def splitDiagonals {P : Type} (choose : List P → Option (Nat × Nat)) :
    Nat → List (Nat × P) → List (Int × Int)
  | 0, _ => []
  | fuel + 1, poly =>
    if poly.length ≤ 3 then []
    else
      match choose (poly.map Prod.snd) with
      | none => []
      | some (i, j) =>
        if properChord poly.length i j then
          (localIndex poly i, localIndex poly j)
            :: (splitDiagonals choose fuel ((poly.drop i).take (j - i + 1))
              ++ splitDiagonals choose fuel (poly.take (i + 1) ++ poly.drop j))
        else []

/-- Modelled from the spec: the convex-optimized finder does not validate its input and always
gives a complete set of diagonals: whatever its tests on the positions prefer (`pick`), a
diagonal of the polygon at hand is chosen. -/
def convexChoice {P : Type} (pick : List P → Nat × Nat) (positions : List P) :
    Option (Nat × Nat) :=
  if properChord positions.length (pick positions).1 (pick positions).2 then
    some (pick positions)
  else some (0, 2)

/-- Modelled from the spec: the body of `BestConvexDiagonals(faceVertexIndices, meshVertices,
diag)` is not in the available sources (both overloads, `P` being `Point3` or `DPoint3`).
The result is the sequence of integers written to `diag`, or nothing when a debug assertion
stops a read of the buffers. The tests on the vertex positions are the parameter `pick`. -/
def BestConvexDiagonals {P : Type} (w : Nat) (dbg : Bool) (intAt : Nat → Int)
    (pointAt : Nat → P) (pick : List P → Nat × Nat)
    (faceVertexIndices meshVertices : BufferProxy) : Option (List Int) :=
  (facePolygon w dbg intAt pointAt faceVertexIndices meshVertices).map
    (fun poly => flatten (splitDiagonals (convexChoice pick) poly.length poly))

/-- Modelled from the spec: the body of `FindDiagonals(faceVertexIndices, meshVertices, diag)`
is not in the available sources (both overloads, `P` being `Point3` or `DPoint3`). The result
is the sequence of integers written to `diag`, or nothing when a debug assertion stops a read
of the buffers. The tests on the vertex positions that accept a candidate diagonal are the
parameter `findChord`; when they find none, the diagonals found so far are the result. -/
def FindDiagonals {P : Type} (w : Nat) (dbg : Bool) (intAt : Nat → Int)
    (pointAt : Nat → P) (findChord : List P → Option (Nat × Nat))
    (faceVertexIndices meshVertices : BufferProxy) : Option (List Int) :=
  (facePolygon w dbg intAt pointAt faceVertexIndices meshVertices).map
    (fun poly => flatten (splitDiagonals findChord poly.length poly))

/-- The content of an identity face index buffer of `int` at address 4096: the `int` stored
at address `4096 + 4 * i` is `i`. -/
def identityIndexMemory (addr : Nat) : Int :=
  (((addr - 4096) / 4 : Nat) : Int)

/-- A vertex memory for evaluation: the position stored at an address is named by the
address. -/
def addressAsPosition (addr : Nat) : Nat :=
  addr

/-! ## Areas of polygons and triangles

The area of a polygon and of its triangles is a quantity of the specification, not a value that
the code computes. It is taken over exact coordinates: a polygon is given by the positions of
its vertices in the plane, as in the unit square `(0,0), (1,0), (1,1), (0,1)` of the
specification, with rational coordinates. -/

end MaxSDK

/-! ## `fnv1a_hash_bytes` (header `Util/fnv1a.hpp`) -/

/-- The width in bits of `size_t`, as fixed by the `static_assert` of each branch of
`#if defined(_WIN64)`: 8 bytes with `_WIN64`, 4 bytes without. -/
def sizeTBits (win64 : Bool) : Nat :=
  if win64 then 64 else 32

/-- The constant `fnv_offset_basis` of each branch of `#if defined(_WIN64)`. -/
def fnv_offset_basis (win64 : Bool) : Nat :=
  if win64 then 14695981039346656037 else 2166136261

/-- The constant `fnv_prime` of each branch of `#if defined(_WIN64)`. -/
def fnv_prime (win64 : Bool) : Nat :=
  if win64 then 1099511628211 else 16777619

/-- The function `size_t fnv1a_hash_bytes(const unsigned char* first, size_t count)`.
The pointer `first` is the map from an offset to the byte stored there. The loop
`for (next = 0; next < count; ++next) { result ^= (size_t)first[next]; result *= fnv_prime; }`
runs over the offsets `0, ..., count - 1`; the product is a `size_t` product. -/
def fnv1a_hash_bytes (win64 : Bool) (first : Nat → Fin 256) (count : Nat) : Nat :=
  (List.range count).foldl
    (fun result next => ((result ^^^ (first next).val) * fnv_prime win64) % 2 ^ sizeTBits win64)
    (fnv_offset_basis win64)

/-- The memory seen through a pointer to the first byte of a byte sequence (bytes after the
sequence read as 0). -/
def bufferOf (bytes : List (Fin 256)) : Nat → Fin 256 :=
  fun next => bytes.getD next 0

/-- The FNV-1a reference hash as the property words it: starting from the offset basis, each
byte in order is XORed into the state and the state is then multiplied by the FNV prime
modulo `2 ^ w`. -/
def fnv1aReference (w offsetBasis prime : Nat) (bytes : List (Fin 256)) : Nat :=
  bytes.foldl (fun state b => ((state ^^^ b.val) * prime) % 2 ^ w) offsetBasis

/-! ## `MSPlugin` flags (header `maxscript/mxsplugin/mxsPlugin.h`) -/

/-- The constant `#define MSP_LOADING 0x0001`: instance is currently being loaded. -/
def MSP_LOADING : Nat := 0x0001

/-- The constant `#define MSP_DISABLED 0x0002`: general disablement flag. -/
def MSP_DISABLED : Nat := 0x0002

/-- The constant `#define MSP_DELETED 0x0004`: deleted in the MAX world. -/
def MSP_DELETED : Nat := 0x0004

/-- The integer promotion of a `short` to `int`: a `short` is given by its 16 bits (two's
complement), an `int` by its 32 bits, and the promotion extends the sign bit. -/
def shortToInt (x : Nat) : Nat :=
  if x % 2 ^ 16 < 2 ^ 15 then x % 2 ^ 16 else x % 2 ^ 16 + (2 ^ 32 - 2 ^ 16)

/-- The conversion of an `int` back to `short` on assignment: the low 16 bits. -/
def intToShort (x : Nat) : Nat :=
  x % 2 ^ 16

/-- The operator `~` on an `int`: all 32 bits flipped. -/
def intNot (x : Nat) : Nat :=
  (2 ^ 32 - 1) ^^^ (x % 2 ^ 32)

/-- The member `short flags` of `MSPlugin`, the only member that `disable`, `enable` and
`enabled` read or write. -/
structure MSPlugin where
  /-- The 16 bits of `short flags`. -/
  flags : Nat
  deriving DecidableEq, Repr

namespace MSPlugin

/-- The constructor `MSPlugin() { flags = 0; }`. -/
def new : MSPlugin :=
  { flags := 0 }

/-- The member `void disable() { flags |= MSP_DISABLED; }`. -/
def disable (p : MSPlugin) : MSPlugin :=
  { flags := intToShort (shortToInt p.flags ||| MSP_DISABLED) }

/-- The member `void enable() { flags &= ~MSP_DISABLED; }`. -/
def enable (p : MSPlugin) : MSPlugin :=
  { flags := intToShort (shortToInt p.flags &&& intNot MSP_DISABLED) }

/-- The member `BOOL enabled() { return !(flags & MSP_DISABLED); }`; the result `TRUE` is
`true`. -/
def enabled (p : MSPlugin) : Bool :=
  (shortToInt p.flags &&& MSP_DISABLED) == 0

end MSPlugin

namespace MaxSDK

/-! ## Facts about machine words -/

theorem toSizeT_toIntptr (w n : Nat) : toSizeT w (toIntptr w n) = n % 2 ^ w := by
  have hpos : (0 : Int) < (2 : Int) ^ w := by positivity
  have hcast : ((2 ^ w : Nat) : Int) = (2 : Int) ^ w := by push_cast; rfl
  have hmod : (((n % 2 ^ w : Nat) : Int)) % (2 : Int) ^ w = ((n % 2 ^ w : Nat) : Int) := by
    apply Int.emod_eq_of_lt
    · exact Int.ofNat_nonneg _
    · rw [← hcast]
      exact_mod_cast Nat.mod_lt n (by positivity)
  unfold toSizeT toIntptr
  split
  · rw [hmod]; exact Int.toNat_ofNat _
  · rw [Int.sub_emod, Int.emod_self, sub_zero, Int.emod_emod, hmod]; exact Int.toNat_ofNat _

theorem operatorIndex_address (w : Nat) (bp : BufferProxy) (i : Nat) :
    toSizeT w (toIntptr w ((toSizeT w (toIntptr w bp.mData) + (i * bp.mStride) % 2 ^ w) % 2 ^ w))
      = (bp.mData + i * bp.mStride) % 2 ^ w := by
  rw [toSizeT_toIntptr, toSizeT_toIntptr, Nat.mod_mod, ← Nat.add_mod]

theorem operatorIndex_of_assert (w : Nat) (dbg : Bool) (bp : BufferProxy) (i : Nat)
    (hassert : DbgAssert dbg (bp.IsValid && decide (i < bp.mNumElements)) = true) :
    bp.operatorIndex w dbg i = Access.deref ((bp.mData + i * bp.mStride) % 2 ^ w) ∧
      bp.operatorIndexConst w dbg i = Access.deref ((bp.mData + i * bp.mStride) % 2 ^ w) := by
  constructor
  · simp only [BufferProxy.operatorIndex, hassert, if_true]
    rw [operatorIndex_address]
  · simp only [BufferProxy.operatorIndexConst, hassert, if_true]
    rw [operatorIndex_address]

theorem dbgAssert_in_range (dbg : Bool) (bp : BufferProxy) (i : Nat)
    (hassert : DbgAssert dbg bp.IsValid = true) (hi : i < bp.Count) :
    DbgAssert dbg (bp.IsValid && decide (i < bp.mNumElements)) = true := by
  have hi2 : i < bp.mNumElements := hi
  simpa [DbgAssert, hi2] using hassert

/-- Two strided addresses below a non-overflowing extent are at least one stride apart, also
after reduction modulo `2 ^ w`. -/
theorem strided_addresses_apart (P base s sz n i j : Nat) (hsz : sz ≤ s) (hn : n * s < P)
    (hij : i < j) (hj : j < n) :
    ((base + i * s) % P + sz ≤ (base + j * s) % P ∨
        (base + j * s) % P + sz ≤ (base + i * s) % P) ∧
      ∀ k k2, k < sz → k2 < sz →
        ((base + i * s) % P + k) % P ≠ ((base + j * s) % P + k2) % P := by
  obtain ⟨t, rfl⟩ := Nat.exists_eq_add_of_lt hij
  obtain ⟨u, rfl⟩ := Nat.exists_eq_add_of_lt hj
  have hP : 0 < P := by omega
  have e1 : (i + t + 1) * s = i * s + t * s + s := by ring
  have e2 : (i + t + 1 + u + 1) * s = i * s + t * s + s + u * s + s := by ring
  rw [e2] at hn
  rw [e1]
  clear e1 e2 hij hj
  generalize i * s = A at hn ⊢
  generalize t * s = T at hn ⊢
  generalize u * s = U at hn
  have hai : (base + A) % P < P := Nat.mod_lt _ hP
  have hsplit : (base + (A + T + s)) % P = ((base + A) % P + (T + s)) % P := by
    rw [Nat.mod_add_mod]
    congr 1
    omega
  rw [hsplit]
  generalize (base + A) % P = ai at hai ⊢
  constructor
  · rcases Nat.lt_or_ge (ai + (T + s)) P with h | h
    · rw [Nat.mod_eq_of_lt h]; left; omega
    · rw [Nat.mod_eq_sub_mod h, Nat.mod_eq_of_lt (by omega)]; right; omega
  · intro k k2 hk hk2 heq
    rw [Nat.mod_add_mod] at heq
    have hmodeq : Nat.ModEq P (ai + k) (ai + (T + s + k2)) := by
      unfold Nat.ModEq
      rw [heq]
      congr 1
      omega
    have hcancel : Nat.ModEq P k (T + s + k2) := Nat.ModEq.add_left_cancel' _ hmodeq
    have := Nat.ModEq.eq_of_lt_of_lt hcancel (by omega) (by omega)
    omega

/-! ## Facts about flat diagonal buffers -/

theorem toPairs_flatten_append (ps : List (Int × Int)) (r : List Int) :
    toPairs (flatten ps ++ r) = ps ++ toPairs r := by
  induction ps with
  | nil => simp [flatten]
  | cons p ps ih => simp [flatten, toPairs, ih]

theorem flatten_length (ps : List (Int × Int)) : (flatten ps).length = 2 * ps.length := by
  induction ps with
  | nil => simp [flatten]
  | cons p ps ih => simp [flatten, ih]; omega

theorem flatten_pairsOf_append_restOf (n : Nat) (l : List Int) :
    flatten (pairsOf n l) ++ restOf n l = l := by
  induction n generalizing l with
  | zero => simp [pairsOf, restOf, flatten]
  | succ k ih =>
    match l with
    | [] => simp [pairsOf, restOf, flatten]
    | [a] => simp [pairsOf, restOf, flatten]
    | a :: b :: rest => simp [pairsOf, restOf, flatten, ih rest]

theorem pairsOf_length_le (n : Nat) (l : List Int) : (pairsOf n l).length ≤ n := by
  induction n generalizing l with
  | zero => simp [pairsOf]
  | succ k ih =>
    match l with
    | [] => simp [pairsOf]
    | [a] => simp [pairsOf]
    | a :: b :: rest => simpa [pairsOf] using ih rest

theorem pairsOf_full_or_restOf_short (n : Nat) (l : List Int) :
    (pairsOf n l).length = n ∨ (restOf n l).length < 2 := by
  induction n generalizing l with
  | zero => simp [pairsOf]
  | succ k ih =>
    match l with
    | [] => simp [pairsOf, restOf]
    | [a] => simp [pairsOf, restOf]
    | a :: b :: rest => simpa [pairsOf, restOf] using ih rest

theorem restOf_length (n : Nat) (l : List Int) :
    (restOf n l).length = l.length - 2 * (pairsOf n l).length := by
  induction n generalizing l with
  | zero => simp [pairsOf, restOf]
  | succ k ih =>
    match l with
    | [] => simp [pairsOf, restOf]
    | [a] => simp [pairsOf, restOf]
    | a :: b :: rest => simp [pairsOf, restOf, ih rest]; omega

theorem toPairs_of_length_lt_two (r : List Int) (h : r.length < 2) : toPairs r = [] := by
  match r, h with
  | [], _ => rfl
  | [a], _ => rfl
  | a :: b :: rest, h => exact absurd h (by simp only [List.length_cons]; omega)

theorem pairsOf_restOf_flatten_append (n : Nat) (ps : List (Int × Int)) (r : List Int)
    (hle : ps.length ≤ n) (hfull : ps.length = n ∨ r.length < 2) :
    pairsOf n (flatten ps ++ r) = ps ∧ restOf n (flatten ps ++ r) = r := by
  induction ps generalizing n with
  | nil =>
    match n, r, hfull with
    | 0, r, _ => simp [pairsOf, restOf, flatten]
    | k + 1, [], _ => simp [pairsOf, restOf, flatten]
    | k + 1, [a], _ => simp [pairsOf, restOf, flatten]
    | k + 1, a :: b :: rest, h =>
      exact absurd h (by simp only [List.length_cons, List.length_nil]; omega)
  | cons p ps ih =>
    match n, hle, hfull with
    | 0, hle, _ => simp at hle
    | k + 1, hle, hfull =>
      have hle2 : ps.length ≤ k := by simpa using hle
      have hfull2 : ps.length = k ∨ r.length < 2 := by
        rcases hfull with h | h
        · left; simpa using h
        · right; exact h
      obtain ⟨h1, h2⟩ := ih k hle2 hfull2
      simp [pairsOf, restOf, flatten, h1, h2]

/-! ## Facts about the diagonal order -/

instance diagLE.isTotal : IsTotal (Int × Int) diagLE :=
  ⟨fun p q => by unfold diagLE; omega⟩

instance diagLE.isTrans : IsTrans (Int × Int) diagLE :=
  ⟨fun p q r hpq hqr => by unfold diagLE at *; omega⟩

instance diagLE.isAntisymm : IsAntisymm (Int × Int) diagLE :=
  ⟨fun p q hpq hqp => by
    unfold diagLE at *
    exact Prod.ext (by omega) (by omega)⟩

theorem canonical_fst_le_snd (p : Int × Int) : (canonical p).1 ≤ (canonical p).2 := by
  unfold canonical
  split
  · simp; omega
  · omega

theorem canonical_of_le (p : Int × Int) (h : p.1 ≤ p.2) : canonical p = p := by
  unfold canonical
  rw [if_neg (by omega)]

theorem sym2_canonical (p : Int × Int) : Sym2.mk (canonical p) = Sym2.mk p := by
  unfold canonical
  split
  · exact Sym2.eq_swap
  · rfl

theorem map_canonical_of_le (ps : List (Int × Int)) (h : ∀ p ∈ ps, p.1 ≤ p.2) :
    ps.map canonical = ps := by
  induction ps with
  | nil => rfl
  | cons p ps ih =>
    simp only [List.map_cons]
    rw [canonical_of_le p (h p (List.mem_cons_self p ps)),
      ih (fun q hq => h q (List.mem_cons_of_mem p hq))]

/-- The sorted canonical diagonals that `SortPolygonDiagonals` writes back. -/
theorem sorted_canonical_le (ps : List (Int × Int)) :
    ∀ p ∈ List.insertionSort diagLE (ps.map canonical), p.1 ≤ p.2 := by
  intro p hp
  rw [List.mem_insertionSort] at hp
  obtain ⟨q, _, rfl⟩ := List.mem_map.mp hp
  exact canonical_fst_le_snd q

/-- The order leaves no freedom to the sorting algorithm: every sorted rearrangement of the
canonical diagonals is the list that `SortPolygonDiagonals` writes back. -/
theorem sorted_rearrangement_unique (ps qs : List (Int × Int))
    (hperm : List.Perm qs (ps.map canonical)) (hsorted : List.Sorted diagLE qs) :
    qs = List.insertionSort diagLE (ps.map canonical) :=
  List.eq_of_perm_of_sorted
    (hperm.trans (List.perm_insertionSort diagLE (ps.map canonical)).symm)
    hsorted (List.sorted_insertionSort diagLE _)

/-- The diagonals in the buffer after the call, when the buffer holds `dnum` integers. -/
theorem toPairs_sortPolygonDiagonals (dnum : Nat) (diag : List Int)
    (hlen : diag.length = dnum) :
    toPairs (SortPolygonDiagonals dnum diag)
      = List.insertionSort diagLE ((pairsOf (dnum / 2) diag).map canonical) := by
  have hshort : (restOf (dnum / 2) diag).length < 2 := by
    rcases pairsOf_full_or_restOf_short (dnum / 2) diag with h | h
    · rw [restOf_length, h]; omega
    · exact h
  unfold SortPolygonDiagonals
  rw [toPairs_flatten_append, toPairs_of_length_lt_two _ hshort, List.append_nil]

theorem pairsOf_eq_toPairs (dnum : Nat) (diag : List Int) (hlen : diag.length = dnum) :
    pairsOf (dnum / 2) diag = toPairs diag := by
  have hshort : (restOf (dnum / 2) diag).length < 2 := by
    rcases pairsOf_full_or_restOf_short (dnum / 2) diag with h | h
    · rw [restOf_length, h]; omega
    · exact h
  have h := congrArg toPairs (flatten_pairsOf_append_restOf (dnum / 2) diag)
  rw [toPairs_flatten_append, toPairs_of_length_lt_two _ hshort, List.append_nil] at h
  exact h

/-! ## Facts about triangle tables and triangulations -/

theorem toTriples_flattenTriples (ts : List (Int × Int × Int)) :
    toTriples (flattenTriples ts) = ts := by
  induction ts with
  | nil => rfl
  | cons t ts ih => simp [flattenTriples, toTriples, ih]

theorem flattenTriples_length (ts : List (Int × Int × Int)) :
    (flattenTriples ts).length = 3 * ts.length := by
  induction ts with
  | nil => rfl
  | cons t ts ih => simp [flattenTriples, ih]; omega

theorem flattenTriples_append (ts us : List (Int × Int × Int)) :
    flattenTriples (ts ++ us) = flattenTriples ts ++ flattenTriples us := by
  induction ts with
  | nil => rfl
  | cons t ts ih => simp [flattenTriples, ih]

namespace Triangulation

theorem span_pos (T : Triangulation) : 0 < T.span := by
  induction T with
  | edge => simp [span]
  | node l r ihl ihr => simp [span]; omega

theorem triangleCount_add_one (T : Triangulation) : T.triangleCount + 1 = T.span := by
  induction T with
  | edge => rfl
  | node l r ihl ihr => simp [span, triangleCount]; omega

theorem chordsFrom_length (a : Nat) (T : Triangulation) :
    (T.chordsFrom a).length = T.triangleCount := by
  induction T generalizing a with
  | edge => rfl
  | node l r ihl ihr => simp [chordsFrom, triangleCount, ihl, ihr]; omega

theorem trianglesFrom_length (a : Nat) (T : Triangulation) :
    (T.trianglesFrom a).length = T.triangleCount := by
  induction T generalizing a with
  | edge => rfl
  | node l r ihl ihr => simp [trianglesFrom, triangleCount, ihl, ihr]; omega

/-- Every side behind the side `(a, b)` joins two vertices between `a` and `b` that are not
neighbours on the boundary. -/
theorem chordsFrom_bounds (a : Nat) (T : Triangulation) :
    ∀ c ∈ T.chordsFrom a, (a : Int) ≤ c.1 ∧ c.1 + 2 ≤ c.2 ∧ c.2 ≤ ((a + T.span : Nat) : Int) := by
  induction T generalizing a with
  | edge => intro c hc; simp [chordsFrom] at hc
  | node l r ihl ihr =>
    intro c hc
    have hl := span_pos l
    have hr := span_pos r
    simp only [chordsFrom, List.mem_append, List.mem_singleton] at hc
    simp only [span]
    rcases hc with (hc | hc) | hc
    · have := ihl a c hc
      push_cast at this ⊢
      omega
    · have := ihr (a + span l) c hc
      push_cast at this ⊢
      omega
    · subst hc
      push_cast
      omega

/-- Every triangle behind the side `(a, b)` has its three vertices in increasing order between
`a` and `b`. -/
theorem trianglesFrom_bounds (a : Nat) (T : Triangulation) :
    ∀ t ∈ T.trianglesFrom a,
      (a : Int) ≤ t.1 ∧ t.1 < t.2.1 ∧ t.2.1 < t.2.2 ∧ t.2.2 ≤ ((a + T.span : Nat) : Int) := by
  induction T generalizing a with
  | edge => intro t ht; simp [trianglesFrom] at ht
  | node l r ihl ihr =>
    intro t ht
    have hl := span_pos l
    have hr := span_pos r
    simp only [trianglesFrom, List.mem_append, List.mem_singleton] at ht
    simp only [span]
    rcases ht with (ht | ht) | ht
    · have := ihl a t ht
      push_cast at this ⊢
      omega
    · have := ihr (a + span l) t ht
      push_cast at this ⊢
      omega
    · subst ht
      push_cast
      omega

end Triangulation

/-! ## Facts about the walk of `GetTriangles` -/

theorem walkStep_push (deg : Nat) (s : Walk) (hv : s.v < deg)
    (hhead : ∀ c ∈ s.chords.head?, c.2 ≠ (s.v : Int)) :
    walkStep deg s
      = { v := s.v + 1, chords := s.chords, stack := (s.v : Int) :: s.stack, tri := s.tri } := by
  unfold walkStep
  rw [if_pos hv]
  split
  · next a b rest m below hchords hstack =>
    have hne : b ≠ (s.v : Int) := hhead (a, b) (by simp [hchords])
    rw [if_neg hne]
  · rfl

theorem walkStep_close (deg v : Nat) (a m : Int) (rest : List (Int × Int))
    (below out : List Int) (hv : v < deg) :
    walkStep deg { v := v, chords := (a, (v : Int)) :: rest, stack := m :: below, tri := out }
      = { v := v, chords := rest, stack := below, tri := out ++ [a, m, (v : Int)] } := by
  simp [walkStep, hv]

theorem walkStep_done (deg : Nat) (s : Walk) (hv : deg ≤ s.v) : walkStep deg s = s := by
  unfold walkStep
  rw [if_neg (by omega)]

theorem walkStep_iterate_done (deg : Nat) (s : Walk) (hv : deg ≤ s.v) (n : Nat) :
    (walkStep deg)^[n] s = s := by
  induction n with
  | zero => rfl
  | succ k ih => rw [Function.iterate_succ_apply, walkStep_done deg s hv, ih]

/-- Each step of the walk uses up a pending diagonal or visits a boundary vertex, so the walk
has visited all `deg` vertices after `deg` steps more than there are pending diagonals. -/
theorem walk_completes (deg : Nat) :
    ∀ (n : Nat) (s : Walk), s.v ≤ deg → (deg - s.v) + s.chords.length ≤ n →
      ((walkStep deg)^[n] s).v = deg := by
  intro n
  induction n with
  | zero => intro s hv hn; simp only [Function.iterate_zero, id_eq]; omega
  | succ k ih =>
    intro s hv hn
    rcases Nat.lt_or_ge s.v deg with hlt | hge
    · rw [Function.iterate_succ_apply]
      apply ih
      · unfold walkStep
        rw [if_pos hlt]
        split
        · split
          · simp only; omega
          · simp only; omega
        · simp only; omega
      · unfold walkStep
        rw [if_pos hlt]
        split
        · next a b rest m below hchords hstack =>
          rw [hchords] at hn
          simp only [List.length_cons] at hn
          split
          · simp only; omega
          · simp only [hchords, List.length_cons]; omega
        · simp only; omega
    · rw [walkStep_iterate_done deg s hge]
      omega

/-- Walking the boundary from `a + 1` to `b` with the sides behind `(a, b)` pending emits the
triangles behind `(a, b)` and leaves `a` as the most recent active vertex. -/
theorem walk_subtree (deg : Nat) (T : Triangulation) :
    ∀ (a : Nat) (rest : List (Int × Int)) (base out : List Int), a + T.span < deg →
      (walkStep deg)^[2 * T.triangleCount]
          { v := a + 1, chords := T.chordsFrom a ++ rest, stack := (a : Int) :: base, tri := out }
        = { v := a + T.span, chords := rest, stack := (a : Int) :: base,
            tri := out ++ flattenTriples (T.trianglesFrom a) } := by
  induction T with
  | edge =>
    intro a rest base out _
    simp [Triangulation.triangleCount, Triangulation.chordsFrom, Triangulation.trianglesFrom,
      Triangulation.span, flattenTriples]
  | node l r ihl ihr =>
    intro a rest base out hdeg
    have hl := Triangulation.span_pos l
    have hr := Triangulation.span_pos r
    simp only [Triangulation.span] at hdeg
    have hcount : 2 * (Triangulation.node l r).triangleCount
        = 1 + (2 * r.triangleCount + (1 + 2 * l.triangleCount)) := by
      simp only [Triangulation.triangleCount]; omega
    rw [hcount, Function.iterate_add_apply, Function.iterate_add_apply,
      Function.iterate_add_apply, Function.iterate_one]
    simp only [Triangulation.chordsFrom, Triangulation.trianglesFrom, Triangulation.span,
      List.append_assoc]
    have h1 := ihl a
      (r.chordsFrom (a + l.span) ++ ([(((a : Nat) : Int), ((a + l.span + r.span : Nat) : Int))]
        ++ rest)) base out (by omega)
    have h2 : walkStep deg
        { v := a + l.span,
          chords := r.chordsFrom (a + l.span)
            ++ ([(((a : Nat) : Int), ((a + l.span + r.span : Nat) : Int))] ++ rest),
          stack := (a : Int) :: base, tri := out ++ flattenTriples (l.trianglesFrom a) }
        = { v := a + l.span + 1,
            chords := r.chordsFrom (a + l.span)
              ++ ([(((a : Nat) : Int), ((a + l.span + r.span : Nat) : Int))] ++ rest),
            stack := ((a + l.span : Nat) : Int) :: (a : Int) :: base,
            tri := out ++ flattenTriples (l.trianglesFrom a) } := by
      apply walkStep_push
      · simp only; omega
      · intro c hc
        simp only at hc ⊢
        rcases hlist : r.chordsFrom (a + l.span) with _ | ⟨c0, cs⟩
        · rw [hlist] at hc
          simp at hc
          subst hc
          simp only
          push_cast
          omega
        · rw [hlist] at hc
          simp at hc
          subst hc
          have hmem : c0 ∈ r.chordsFrom (a + l.span) := by
            rw [hlist]; exact List.mem_cons_self _ _
          have := Triangulation.chordsFrom_bounds (a + l.span) r c0 hmem
          push_cast at this ⊢
          omega
    have h3 := ihr (a + l.span)
      ([(((a : Nat) : Int), ((a + l.span + r.span : Nat) : Int))] ++ rest) ((a : Int) :: base)
      (out ++ flattenTriples (l.trianglesFrom a)) (by omega)
    have h4 := walkStep_close deg (a + l.span + r.span) (a : Int) ((a + l.span : Nat) : Int)
      rest ((a : Int) :: base)
      (out ++ flattenTriples (l.trianglesFrom a)
        ++ flattenTriples (r.trianglesFrom (a + l.span))) (by omega)
    rw [h1, h2, h3, List.singleton_append, h4]
    simp [flattenTriples_append, flattenTriples, List.append_assoc, Nat.add_assoc]

theorem Triangulation.eq_edge_of_span (T : Triangulation) (h : T.span = 1) :
    T = Triangulation.edge := by
  cases T with
  | edge => rfl
  | node l r =>
    have hl := Triangulation.span_pos l
    have hr := Triangulation.span_pos r
    simp only [Triangulation.span] at h
    omega

theorem pairsOf_flatten (n : Nat) (ps : List (Int × Int)) (h : ps.length = n) :
    pairsOf n (flatten ps) = ps := by
  have := (pairsOf_restOf_flatten_append n ps [] (by omega) (Or.inl h)).1
  rwa [List.append_nil] at this

/-- On the diagonal buffer of a triangulation, `GetTriangles` fills the whole table with the
triangles of that triangulation. -/
theorem getTriangles_of_triangulation (deg : Nat) (T : Triangulation) (tri : List Int)
    (hdeg : 3 ≤ deg) (hT : T.span + 1 = deg) :
    GetTriangles deg T.diagonals tri = flattenTriples (T.trianglesFrom 0) := by
  cases T with
  | edge => simp only [Triangulation.span] at hT; omega
  | node l r =>
    have hl := Triangulation.span_pos l
    have hr := Triangulation.span_pos r
    have hcl := Triangulation.triangleCount_add_one l
    have hcr := Triangulation.triangleCount_add_one r
    simp only [Triangulation.span] at hT
    by_cases h3 : deg = 3
    · have hl1 : l = Triangulation.edge := Triangulation.eq_edge_of_span l (by omega)
      have hr1 : r = Triangulation.edge := Triangulation.eq_edge_of_span r (by omega)
      subst hl1 hr1 h3
      rfl
    · have hpairs : pairsOf (deg - 3) (Triangulation.node l r).diagonals
          = l.chordsFrom 0 ++ r.chordsFrom l.span := by
        apply pairsOf_flatten
        rw [List.length_append, Triangulation.chordsFrom_length,
          Triangulation.chordsFrom_length]
        omega
      have hchords : pairsOf (deg - 3) (Triangulation.node l r).diagonals
            ++ [((0 : Int), ((deg - 1 : Nat) : Int))]
          = (Triangulation.node l r).chordsFrom 0 := by
        rw [hpairs]
        have hlast : deg - 1 = 0 + l.span + r.span := by omega
        simp only [Triangulation.chordsFrom, hlast, Nat.zero_add, Nat.cast_zero]
      have hlen : ((Triangulation.node l r).chordsFrom 0).length = deg - 2 := by
        rw [Triangulation.chordsFrom_length]
        simp only [Triangulation.triangleCount]
        omega
      have hsteps : deg + (deg - 2)
          = 1 + (2 * (Triangulation.node l r).triangleCount + 1) := by
        simp only [Triangulation.triangleCount]
        omega
      have hfirst : walkStep deg
          { v := 0, chords := (Triangulation.node l r).chordsFrom 0, stack := [], tri := [] }
          = { v := 0 + 1, chords := (Triangulation.node l r).chordsFrom 0 ++ [],
              stack := ((0 : Nat) : Int) :: [], tri := [] } := by
        rw [walkStep_push deg _ (by simp only; omega)]
        · simp
        · intro c hc
          have hmem : c ∈ (Triangulation.node l r).chordsFrom 0 :=
            List.mem_of_mem_head? hc
          have := Triangulation.chordsFrom_bounds 0 _ c hmem
          simp only at this ⊢
          push_cast at this ⊢
          omega
      have hwalk := walk_subtree deg (Triangulation.node l r) 0 [] [] []
        (by simp only [Triangulation.span]; omega)
      have hlast : walkStep deg
          { v := 0 + (Triangulation.node l r).span, chords := [],
            stack := ((0 : Nat) : Int) :: [],
            tri := [] ++ flattenTriples ((Triangulation.node l r).trianglesFrom 0) }
          = { v := 0 + (Triangulation.node l r).span + 1, chords := [],
              stack := ((0 + (Triangulation.node l r).span : Nat) : Int)
                :: ((0 : Nat) : Int) :: [],
              tri := [] ++ flattenTriples ((Triangulation.node l r).trianglesFrom 0) } := by
        rw [walkStep_push deg _ (by simp only [Triangulation.span]; omega)]
        intro c hc
        simp at hc
      have hout : (flattenTriples ((Triangulation.node l r).trianglesFrom 0)).length
          = (deg - 2) * 3 := by
        rw [flattenTriples_length, Triangulation.trianglesFrom_length]
        simp only [Triangulation.triangleCount]
        omega
      unfold GetTriangles
      rw [if_neg h3]
      simp only
      rw [hchords, hlen, hsteps, Function.iterate_add_apply, Function.iterate_add_apply,
        Function.iterate_one, hfirst, hwalk, hlast]
      simp only [List.nil_append]
      rw [← hout]
      exact List.take_left' rfl

theorem toTriples_length : ∀ l : List Int, (toTriples l).length = l.length / 3
  | [] => rfl
  | [_] => by simp [toTriples]
  | [_, _] => by simp [toTriples]
  | _ :: _ :: _ :: rest => by
    simp only [toTriples, List.length_cons, toTriples_length rest]
    omega

theorem setCount_length (n : Nat) (tab : List Int) : (setCount n tab).length = n := by
  simp only [setCount, List.length_take, List.length_append, List.length_replicate]
  omega

theorem getTriangles_length (deg : Nat) (diag tri : List Int) (hdeg : 3 ≤ deg) :
    (GetTriangles deg diag tri).length = (deg - 2) * 3 := by
  unfold GetTriangles
  split
  · next h3 => subst h3; rfl
  · simp only [List.length_take, List.length_append, List.length_drop, setCount_length]
    omega

/-! ## Facts about valid sorted diagonal lists -/

namespace Triangulation

/-- The sides behind `(a, b)` are listed in the order of the diagonal sorter. -/
theorem chordsFrom_sorted (a : Nat) (T : Triangulation) :
    List.Sorted diagLE (T.chordsFrom a) := by
  induction T generalizing a with
  | edge => exact List.sorted_nil
  | node l r ihl ihr =>
    have hl := span_pos l
    have hr := span_pos r
    simp only [chordsFrom, List.Sorted, List.pairwise_append, List.pairwise_cons,
      List.Pairwise.nil, List.mem_append, List.mem_singleton, List.not_mem_nil]
    refine ⟨⟨ihl a, ihr (a + span l), ?_⟩, ?_, ?_⟩
    · intro x hx y hy
      have h1 := chordsFrom_bounds a l x hx
      have h2 := chordsFrom_bounds (a + span l) r y hy
      unfold diagLE
      push_cast at h1 h2
      omega
    · exact ⟨fun _ h => h.elim, trivial⟩
    · intro x hx y hy
      subst hy
      unfold diagLE
      rcases hx with hx | hx
      · have h1 := chordsFrom_bounds a l x hx
        push_cast at h1 ⊢
        omega
      · have h2 := chordsFrom_bounds (a + span l) r x hx
        push_cast at h2 ⊢
        omega

/-- No two sides behind `(a, b)` cross. -/
theorem chordsFrom_noncrossing (a : Nat) (T : Triangulation) :
    List.Pairwise (fun p q => ¬ crosses p q) (T.chordsFrom a) := by
  induction T generalizing a with
  | edge => exact List.Pairwise.nil
  | node l r ihl ihr =>
    have hl := span_pos l
    have hr := span_pos r
    simp only [chordsFrom, List.pairwise_append, List.pairwise_cons,
      List.Pairwise.nil, List.mem_append, List.mem_singleton, List.not_mem_nil]
    refine ⟨⟨ihl a, ihr (a + span l), ?_⟩, ?_, ?_⟩
    · intro x hx y hy
      have h1 := chordsFrom_bounds a l x hx
      have h2 := chordsFrom_bounds (a + span l) r y hy
      unfold crosses
      push_cast at h1 h2
      omega
    · exact ⟨fun _ h => h.elim, trivial⟩
    · intro x hx y hy
      subst hy
      unfold crosses
      rcases hx with hx | hx
      · have h1 := chordsFrom_bounds a l x hx
        push_cast at h1 ⊢
        omega
      · have h2 := chordsFrom_bounds (a + span l) r x hx
        push_cast at h2 ⊢
        omega

end Triangulation

/-- The sides behind `(a, b)` are pairwise different. -/
theorem Triangulation.chordsFrom_nodup (a : Nat) (T : Triangulation) :
    (T.chordsFrom a).Nodup := by
  induction T generalizing a with
  | edge => exact List.nodup_nil
  | node l r ihl ihr =>
    have hl := Triangulation.span_pos l
    have hr := Triangulation.span_pos r
    simp only [Triangulation.chordsFrom, List.nodup_append, List.nodup_cons, List.not_mem_nil,
      not_false_eq_true, List.nodup_nil, and_self, List.Disjoint, List.mem_append,
      List.mem_singleton]
    refine ⟨⟨ihl a, ihr (a + l.span), ?_⟩, trivial, ?_⟩
    · intro x hx hx2
      have h1 := Triangulation.chordsFrom_bounds a l x hx
      have h2 := Triangulation.chordsFrom_bounds (a + l.span) r x hx2
      push_cast at h1 h2
      omega
    · intro x hx hroot
      subst hroot
      rcases hx with hx | hx
      · have h1 := Triangulation.chordsFrom_bounds a l _ hx
        push_cast at h1
        omega
      · have h2 := Triangulation.chordsFrom_bounds (a + l.span) r _ hx
        push_cast at h2
        omega

theorem toPairs_length : ∀ l : List Int, (toPairs l).length = l.length / 2
  | [] => rfl
  | [_] => by simp [toPairs]
  | _ :: _ :: rest => by
    simp only [toPairs, List.length_cons, toPairs_length rest]
    omega

theorem flatten_toPairs : ∀ l : List Int, l.length % 2 = 0 → flatten (toPairs l) = l
  | [], _ => rfl
  | [_], h => by simp at h
  | a :: b :: rest, h => by
    have hrest : rest.length % 2 = 0 := by
      simp only [List.length_cons] at h
      omega
    simp [toPairs, flatten, flatten_toPairs rest hrest]

/-- The diagonal buffer of a triangulation is a valid sorted diagonal list, and the diagonal
sorter leaves it unchanged. -/
theorem triangulationDiagonals_valid (deg : Nat) (diag : List Int) (hdeg : 3 ≤ deg)
    (htri : TriangulationDiagonals deg diag) :
    ValidSortedDiagonals deg diag ∧ SortPolygonDiagonals diag.length diag = diag := by
  obtain ⟨T, hT, rfl⟩ := htri
  cases T with
  | edge => simp only [Triangulation.span] at hT; omega
  | node l r =>
    have hl := Triangulation.span_pos l
    have hr := Triangulation.span_pos r
    have hcl := Triangulation.triangleCount_add_one l
    have hcr := Triangulation.triangleCount_add_one r
    simp only [Triangulation.span] at hT
    have hpairs : toPairs (Triangulation.node l r).diagonals
        = l.chordsFrom 0 ++ r.chordsFrom l.span := by
      have h := toPairs_flatten_append (l.chordsFrom 0 ++ r.chordsFrom l.span) []
      simpa [Triangulation.diagonals, toPairs] using h
    have hlen : (Triangulation.node l r).diagonals.length = (deg - 3) * 2 := by
      simp only [Triangulation.diagonals, flatten_length, List.length_append,
        Triangulation.chordsFrom_length]
      omega
    have hall := Triangulation.chordsFrom_sorted 0 (Triangulation.node l r)
    have hnc := Triangulation.chordsFrom_noncrossing 0 (Triangulation.node l r)
    have hnd := Triangulation.chordsFrom_nodup 0 (Triangulation.node l r)
    simp only [Triangulation.chordsFrom, Nat.zero_add] at hall hnc hnd
    have hsorted : List.Sorted diagLE (l.chordsFrom 0 ++ r.chordsFrom l.span) :=
      (List.pairwise_append.mp hall).1
    have hbounds : ∀ p ∈ l.chordsFrom 0 ++ r.chordsFrom l.span,
        0 ≤ p.1 ∧ p.1 + 2 ≤ p.2 ∧ p.2 < (deg : Int) ∧ p ≠ ((0 : Int), ((deg : Int) - 1)) := by
      intro p hp
      have hne : ∀ x y : Int, (p.1 ≠ x ∨ p.2 ≠ y) → p ≠ (x, y) := by
        intro x y h heq
        rw [heq] at h
        simp at h
      rcases List.mem_append.mp hp with h | h
      · have h1 := Triangulation.chordsFrom_bounds 0 l p h
        push_cast at h1
        refine ⟨by omega, by omega, by omega, hne _ _ (Or.inr (by omega))⟩
      · have h2 := Triangulation.chordsFrom_bounds (0 + l.span) r p (by simpa using h)
        push_cast at h2
        refine ⟨by omega, by omega, by omega, hne _ _ (Or.inl (by omega))⟩
    refine ⟨⟨hlen, ?_, ?_, ?_, ?_⟩, ?_⟩
    · rw [hpairs]; exact hbounds
    · rw [hpairs]; exact (List.nodup_append.mp hnd).1
    · rw [hpairs]; exact (List.pairwise_append.mp hnc).1
    · rw [hpairs]; exact hsorted
    · have hcanon : (l.chordsFrom 0 ++ r.chordsFrom l.span).map canonical
          = l.chordsFrom 0 ++ r.chordsFrom l.span :=
        map_canonical_of_le _ (fun p hp => by have := hbounds p hp; omega)
      have hn : (l.chordsFrom 0 ++ r.chordsFrom l.span).length = (deg - 3) * 2 / 2 := by
        rw [List.length_append, Triangulation.chordsFrom_length,
          Triangulation.chordsFrom_length]
        omega
      have hsplit := pairsOf_restOf_flatten_append ((deg - 3) * 2 / 2)
        (l.chordsFrom 0 ++ r.chordsFrom l.span) [] (by omega) (Or.inl hn)
      rw [List.append_nil] at hsplit
      rw [hlen]
      unfold SortPolygonDiagonals
      simp only [Triangulation.diagonals]
      rw [hsplit.1, hsplit.2, hcanon, List.Sorted.insertionSort_eq hsorted, List.append_nil]

/-- A set of pairwise non-crossing diagonals between the vertices `c, ..., c + n`, the side
`(c, c + n)` included, has at most `n - 1` members, and when it has that many it is the set
of sides of a triangulation behind `(c, c + n)`. -/
theorem triangulation_of_noncrossing : ∀ (n c : Nat) (E : Finset (Int × Int)),
    1 ≤ n →
    (∀ p ∈ E, (c : Int) ≤ p.1 ∧ p.1 + 2 ≤ p.2 ∧ p.2 ≤ (c : Int) + n) →
    (∀ p ∈ E, ∀ q ∈ E, ¬ crosses p q) →
    E.card + 1 ≤ n ∧
      (E.card + 1 = n →
        ∃ T : Triangulation, T.span = n ∧ E = (T.chordsFrom c).toFinset) := by
  intro n
  induction n using Nat.strong_induction_on with
  | _ n ih =>
    intro c E hn hb hnc
    by_cases h1 : n = 1
    · subst h1
      have hE : E = ∅ :=
        Finset.eq_empty_of_forall_not_mem (fun p hp => by have := hb p hp; omega)
      subst hE
      exact ⟨by simp, fun _ => ⟨Triangulation.edge, rfl, by simp [Triangulation.chordsFrom]⟩⟩
    · have hE0 : ∀ p ∈ E.erase (((c : Nat) : Int), (c : Int) + n), p ∈ E :=
        fun p hp => Finset.mem_of_mem_erase hp
      have hroot : ∀ p ∈ E.erase (((c : Nat) : Int), (c : Int) + n),
          p.1 = (c : Int) → p.2 < (c : Int) + n := by
        intro p hp hp1
        have hne := Finset.ne_of_mem_erase hp
        have hbp := hb p (hE0 p hp)
        rcases lt_or_eq_of_le hbp.2.2 with h | h
        · exact h
        · exact absurd (Prod.ext hp1 h) hne
      have hsplit : ∃ j : Nat, 1 ≤ j ∧ j < n ∧
          ∀ p ∈ E.erase (((c : Nat) : Int), (c : Int) + n),
            ¬ (p.1 < (c : Int) + j ∧ (c : Int) + j < p.2) := by
        by_cases hA : ∃ p ∈ E.erase (((c : Nat) : Int), (c : Int) + n), p.1 = (c : Int)
        · obtain ⟨p0, hp0, hp01⟩ := hA
          have hne : ((E.erase (((c : Nat) : Int), (c : Int) + n)).filter
              (fun p => p.1 = (c : Int))).Nonempty :=
            ⟨p0, Finset.mem_filter.mpr ⟨hp0, hp01⟩⟩
          obtain ⟨x, hxA, hmax⟩ := Finset.exists_max_image _ Prod.snd hne
          obtain ⟨hx0, hx1⟩ := Finset.mem_filter.mp hxA
          have hbx := hb x (hE0 x hx0)
          have hxlt := hroot x hx0 hx1
          refine ⟨(x.2 - (c : Int)).toNat, by omega, by omega, ?_⟩
          intro p hp ⟨hlt, hgt⟩
          have hj : ((c : Int) + ((x.2 - (c : Int)).toNat : Nat)) = x.2 := by omega
          rw [hj] at hlt hgt
          have hbp := hb p (hE0 p hp)
          by_cases hpc : p.1 = (c : Int)
          · have := hmax p (Finset.mem_filter.mpr ⟨hp, hpc⟩)
            omega
          · exact hnc x (hE0 x hx0) p (hE0 p hp) (Or.inl ⟨by omega, hlt, hgt⟩)
        · refine ⟨1, le_refl 1, by omega, ?_⟩
          intro p hp ⟨hlt, _⟩
          have hbp := hb p (hE0 p hp)
          exact hA ⟨p, hp, by push_cast at hlt; omega⟩
      obtain ⟨j, hj1, hjn, hstraddle⟩ := hsplit
      have hD1 := ih j hjn c
        ((E.erase (((c : Nat) : Int), (c : Int) + n)).filter (fun p => p.2 ≤ (c : Int) + j))
        hj1
        (fun p hp => by
          obtain ⟨hp0, hp2⟩ := Finset.mem_filter.mp hp
          have := hb p (hE0 p hp0)
          exact ⟨this.1, this.2.1, hp2⟩)
        (fun p hp q hq => hnc p (hE0 p (Finset.mem_filter.mp hp).1)
          q (hE0 q (Finset.mem_filter.mp hq).1))
      have hD2 := ih (n - j) (by omega) (c + j)
        ((E.erase (((c : Nat) : Int), (c : Int) + n)).filter
          (fun p => ¬ p.2 ≤ (c : Int) + j))
        (by omega)
        (fun p hp => by
          obtain ⟨hp0, hp2⟩ := Finset.mem_filter.mp hp
          have hbp := hb p (hE0 p hp0)
          have hs := hstraddle p hp0
          push_cast
          refine ⟨by omega, hbp.2.1, by omega⟩)
        (fun p hp q hq => hnc p (hE0 p (Finset.mem_filter.mp hp).1)
          q (hE0 q (Finset.mem_filter.mp hq).1))
      have hcard := Finset.filter_card_add_filter_neg_card_eq_card
        (s := E.erase (((c : Nat) : Int), (c : Int) + n)) (fun p => p.2 ≤ (c : Int) + j)
      have hunion := Finset.filter_union_filter_neg_eq (fun p : Int × Int => p.2 ≤ (c : Int) + j)
        (E.erase (((c : Nat) : Int), (c : Int) + n))
      by_cases hmem : (((c : Nat) : Int), (c : Int) + n) ∈ E
      · have herase := Finset.card_erase_add_one hmem
        refine ⟨by omega, fun htight => ?_⟩
        obtain ⟨T1, hT1, hE1⟩ := hD1.2 (by omega)
        obtain ⟨T2, hT2, hE2⟩ := hD2.2 (by omega)
        refine ⟨Triangulation.node T1 T2, by simp only [Triangulation.span]; omega, ?_⟩
        have hrootcast : ((c + T1.span + T2.span : Nat) : Int) = (c : Int) + n := by
          rw [hT1, hT2]; push_cast; omega
        simp only [Triangulation.chordsFrom, List.toFinset_append, List.toFinset_cons,
          List.toFinset_nil, hrootcast]
        rw [hT1, ← hE1, ← hE2, hunion, Finset.union_comm, insert_emptyc_eq,
          ← Finset.insert_eq, Finset.insert_erase hmem]
      · have herase := Finset.erase_eq_of_not_mem hmem
        rw [herase] at hcard hD1 hD2
        exact ⟨by omega, fun htight => by omega⟩


theorem crosses_symm (p q : Int × Int) (h : ¬ crosses p q) : ¬ crosses q p := by
  unfold crosses at *
  omega

/-- Every valid sorted diagonal list is the diagonal buffer of a triangulation. -/
theorem validSortedDiagonals_triangulation (deg : Nat) (diag : List Int) (hdeg : 3 ≤ deg)
    (hvalid : ValidSortedDiagonals deg diag) : TriangulationDiagonals deg diag := by
  obtain ⟨hlen, hbounds, hnodup, hnc, hsorted⟩ := hvalid
  have hroot : (((0 : Nat) : Int), ((0 : Nat) : Int) + ((deg - 1 : Nat) : Int))
      ∉ (toPairs diag).toFinset := by
    intro hmem
    have h := (hbounds _ (List.mem_toFinset.mp hmem)).2.2.2
    have hd : ((0 : Nat) : Int) + ((deg - 1 : Nat) : Int) = (deg : Int) - 1 := by omega
    rw [hd] at h
    simp at h
  have hncall : ∀ p ∈ toPairs diag, ∀ q ∈ toPairs diag, ¬ crosses p q :=
    List.Pairwise.forall_of_forall (fun p q h => crosses_symm p q h)
      (fun p _ => by unfold crosses; omega) hnc
  have hcard : (insert (((0 : Nat) : Int), ((0 : Nat) : Int) + ((deg - 1 : Nat) : Int))
      (toPairs diag).toFinset).card + 1 = deg - 1 := by
    rw [Finset.card_insert_of_not_mem hroot, List.toFinset_card_of_nodup hnodup,
      toPairs_length, hlen]
    omega
  have hcore := triangulation_of_noncrossing (deg - 1) 0
    (insert (((0 : Nat) : Int), ((0 : Nat) : Int) + ((deg - 1 : Nat) : Int))
      (toPairs diag).toFinset)
    (by omega)
    (fun p hp => by
      rcases Finset.mem_insert.mp hp with h | h
      · subst h
        refine ⟨le_refl _, ?_, le_refl _⟩
        show ((0 : Nat) : Int) + 2 ≤ ((0 : Nat) : Int) + ((deg - 1 : Nat) : Int)
        omega
      · obtain ⟨hb1, hb2, hb3, _⟩ := hbounds p (List.mem_toFinset.mp h)
        push_cast
        omega)
    (fun p hp q hq => by
      rcases Finset.mem_insert.mp hp with h | h
      · rcases Finset.mem_insert.mp hq with h2 | h2
        · subst h h2
          unfold crosses
          omega
        · subst h
          obtain ⟨hb1, hb2, hb3, _⟩ := hbounds q (List.mem_toFinset.mp h2)
          unfold crosses
          simp only
          push_cast
          omega
      · rcases Finset.mem_insert.mp hq with h2 | h2
        · subst h2
          obtain ⟨hb1, hb2, hb3, _⟩ := hbounds p (List.mem_toFinset.mp h)
          unfold crosses
          simp only
          push_cast
          omega
        · exact hncall p (List.mem_toFinset.mp h) q (List.mem_toFinset.mp h2))
  obtain ⟨T, hT, hE⟩ := hcore.2 hcard
  clear hcore
  match T, hT, hE with
  | Triangulation.edge, hT, _ =>
    have h1 : (1 : Nat) = deg - 1 := hT
    omega
  | Triangulation.node l r, hT, hE =>
    have hT2 : l.span + r.span = deg - 1 := hT
    have hl := Triangulation.span_pos l
    have hr := Triangulation.span_pos r
    refine ⟨Triangulation.node l r, by simp only [Triangulation.span]; omega, ?_⟩
    have hcast : ((0 + l.span + r.span : Nat) : Int)
        = ((0 : Nat) : Int) + ((deg - 1 : Nat) : Int) := by
      push_cast; omega
    simp only [Triangulation.chordsFrom, List.toFinset_append, List.toFinset_cons,
      List.toFinset_nil, hcast, insert_emptyc_eq] at hE
    have hnotin : (((0 : Nat) : Int), ((0 : Nat) : Int) + ((deg - 1 : Nat) : Int))
        ∉ (l.chordsFrom 0).toFinset ∪ (r.chordsFrom (0 + l.span)).toFinset := by
      intro hmem
      rcases Finset.mem_union.mp hmem with h | h
      · have h1 := Triangulation.chordsFrom_bounds 0 l _ (List.mem_toFinset.mp h)
        push_cast at h1
        omega
      · have h2 := Triangulation.chordsFrom_bounds (0 + l.span) r _ (List.mem_toFinset.mp h)
        push_cast at h2
        omega
    have hE2 : insert (((0 : Nat) : Int), ((0 : Nat) : Int) + ((deg - 1 : Nat) : Int))
          (toPairs diag).toFinset
        = insert (((0 : Nat) : Int), ((0 : Nat) : Int) + ((deg - 1 : Nat) : Int))
          ((l.chordsFrom 0).toFinset ∪ (r.chordsFrom (0 + l.span)).toFinset) := by
      rw [hE, Finset.insert_eq, Finset.union_comm]
    have hsets : (toPairs diag).toFinset
        = (l.chordsFrom 0 ++ r.chordsFrom (0 + l.span)).toFinset := by
      have h1 := congrArg
        (fun s => Finset.erase s (((0 : Nat) : Int), ((0 : Nat) : Int) + ((deg - 1 : Nat) : Int)))
        hE2
      simp only [Finset.erase_insert hroot, Finset.erase_insert hnotin] at h1
      rw [h1, List.toFinset_append]
    have hall := Triangulation.chordsFrom_sorted 0 (Triangulation.node l r)
    have hnd := Triangulation.chordsFrom_nodup 0 (Triangulation.node l r)
    simp only [Triangulation.chordsFrom] at hall hnd
    have hperm := List.perm_of_nodup_nodup_toFinset_eq hnodup (List.nodup_append.mp hnd).1 hsets
    have heq := List.eq_of_perm_of_sorted hperm hsorted (List.pairwise_append.mp hall).1
    have heven : diag.length % 2 = 0 := by omega
    have hflat := flatten_toPairs diag heven
    rw [heq] at hflat
    simpa [Triangulation.diagonals] using hflat

/-- The valid sorted diagonal lists of a polygon are the diagonal buffers of its
triangulations. -/
theorem validSortedDiagonals_iff (deg : Nat) (diag : List Int) (hdeg : 3 ≤ deg) :
    ValidSortedDiagonals deg diag ↔ TriangulationDiagonals deg diag :=
  ⟨validSortedDiagonals_triangulation deg diag hdeg,
    fun h => (triangulationDiagonals_valid deg diag hdeg h).1⟩

/-! ## Facts about the diagonal finders -/

theorem collect_fst {P : Type} (f : Nat → Option P) (l : List Nat) (poly : List (Nat × P))
    (h : collect (l.map (fun i => (f i).map (fun p => (i, p)))) = some poly) :
    poly.map Prod.fst = l := by
  induction l generalizing poly with
  | nil =>
    simp only [List.map_nil, collect, Option.some.injEq] at h
    subst h
    rfl
  | cons i l ih =>
    simp only [List.map_cons] at h
    cases hf : f i with
    | none => simp [hf, collect] at h
    | some p =>
      simp only [hf, Option.map_some', collect] at h
      cases hc : collect (l.map (fun i => (f i).map (fun p => (i, p)))) with
      | none => simp [hc] at h
      | some xs =>
        simp only [hc, Option.map_some', Option.some.injEq] at h
        subst h
        simp [ih xs hc]

theorem facePolygon_fst {P : Type} (w : Nat) (dbg : Bool) (intAt : Nat → Int)
    (pointAt : Nat → P) (faceVertexIndices meshVertices : BufferProxy)
    (poly : List (Nat × P))
    (h : facePolygon w dbg intAt pointAt faceVertexIndices meshVertices = some poly) :
    poly.map Prod.fst = List.range (faceDegree faceVertexIndices meshVertices) :=
  collect_fst _ _ poly h

theorem facePolygon_length {P : Type} (w : Nat) (dbg : Bool) (intAt : Nat → Int)
    (pointAt : Nat → P) (faceVertexIndices meshVertices : BufferProxy)
    (poly : List (Nat × P))
    (h : facePolygon w dbg intAt pointAt faceVertexIndices meshVertices = some poly) :
    poly.length = faceDegree faceVertexIndices meshVertices := by
  have := congrArg List.length (facePolygon_fst w dbg intAt pointAt _ _ poly h)
  simpa using this

theorem properChord_iff (len i j : Nat) :
    properChord len i j = true ↔ i + 2 ≤ j ∧ j < len ∧ ¬ (i = 0 ∧ j + 1 = len) := by
  simp only [properChord, Bool.and_eq_true, decide_eq_true_eq, Bool.not_eq_true',
    Bool.and_eq_false_iff, beq_eq_false_iff_ne, ne_eq, beq_iff_eq, Bool.not_eq_eq_eq_not,
    Bool.not_true]
  omega

theorem convexChoice_proper {P : Type} (pick : List P → Nat × Nat) (positions : List P)
    (h : 4 ≤ positions.length) :
    ∃ i j, convexChoice pick positions = some (i, j) ∧
      properChord positions.length i j = true := by
  unfold convexChoice
  split
  · next hp => exact ⟨_, _, rfl, hp⟩
  · exact ⟨0, 2, rfl, (properChord_iff _ _ _).mpr ⟨by omega, by omega, by omega⟩⟩

theorem splitDiagonals_short {P : Type} (choose : List P → Option (Nat × Nat)) (fuel : Nat)
    (poly : List (Nat × P)) (h : poly.length ≤ 3) : splitDiagonals choose fuel poly = [] := by
  cases fuel with
  | zero => rfl
  | succ k => simp [splitDiagonals, h]

/-- A chooser that always gives a diagonal yields `len - 3` diagonals on a polygon of `len`
vertices. -/
theorem splitDiagonals_length {P : Type} (choose : List P → Option (Nat × Nat))
    (hchoose : ∀ ps, 4 ≤ ps.length →
      ∃ i j, choose ps = some (i, j) ∧ properChord ps.length i j = true) :
    ∀ (fuel : Nat) (poly : List (Nat × P)), poly.length ≤ fuel → 3 ≤ poly.length →
      (splitDiagonals choose fuel poly).length = poly.length - 3 := by
  intro fuel
  induction fuel with
  | zero => intro poly h0 h3; omega
  | succ k ih =>
    intro poly hk h3
    by_cases hshort : poly.length ≤ 3
    · rw [splitDiagonals_short choose _ poly hshort]
      simp only [List.length_nil]
      omega
    · obtain ⟨i, j, hsome, hproper⟩ := hchoose (poly.map Prod.snd) (by simp; omega)
      rw [List.length_map] at hproper
      obtain ⟨hij, hj, hne⟩ := (properChord_iff _ _ _).mp hproper
      have hlen1 : ((poly.drop i).take (j - i + 1)).length = j - i + 1 := by
        rw [List.length_take, List.length_drop]; omega
      have hlen2 : (poly.take (i + 1) ++ poly.drop j).length = i + 1 + (poly.length - j) := by
        rw [List.length_append, List.length_take, List.length_drop]; omega
      have h1 := ih ((poly.drop i).take (j - i + 1)) (by omega) (by omega)
      have h2 := ih (poly.take (i + 1) ++ poly.drop j) (by omega) (by omega)
      simp only [splitDiagonals, if_neg hshort, hsome, hproper, if_true, List.length_cons,
        List.length_append, h1, h2, hlen1, hlen2]
      omega

/-- Every diagonal that is found joins two vertices of the polygon. -/
theorem splitDiagonals_mem {P : Type} (choose : List P → Option (Nat × Nat)) :
    ∀ (fuel : Nat) (poly : List (Nat × P)), ∀ d ∈ splitDiagonals choose fuel poly,
      (∃ x ∈ poly, d.1 = ((x.1 : Nat) : Int)) ∧ (∃ y ∈ poly, d.2 = ((y.1 : Nat) : Int)) := by
  intro fuel
  induction fuel with
  | zero => intro poly d hd; simp [splitDiagonals] at hd
  | succ k ih =>
    intro poly d hd
    by_cases hshort : poly.length ≤ 3
    · rw [splitDiagonals_short choose _ poly hshort] at hd
      simp at hd
    · cases hsome : choose (poly.map Prod.snd) with
      | none => simp [splitDiagonals, hshort, hsome] at hd
      | some c =>
        obtain ⟨i, j⟩ := c
        by_cases hproper : properChord poly.length i j = true
        · obtain ⟨hij, hj, _⟩ := (properChord_iff _ _ _).mp hproper
          have hat : ∀ n, n < poly.length → ∃ x ∈ poly, localIndex poly n = ((x.1 : Nat) : Int) := by
            intro n hn
            refine ⟨poly.get ⟨n, hn⟩, List.get_mem _ _ _, ?_⟩
            simp [localIndex, List.getD_eq_getElem?_getD, List.getElem?_eq_getElem, hn]
          simp only [splitDiagonals, if_neg hshort, hsome, hproper, if_true, List.mem_cons,
            List.mem_append] at hd
          rcases hd with hd | hd | hd
          · subst hd
            exact ⟨hat i (by omega), hat j hj⟩
          · obtain ⟨⟨x, hx, hx1⟩, ⟨y, hy, hy1⟩⟩ := ih _ d hd
            exact ⟨⟨x, List.mem_of_mem_drop (List.mem_of_mem_take hx), hx1⟩,
              ⟨y, List.mem_of_mem_drop (List.mem_of_mem_take hy), hy1⟩⟩
          · obtain ⟨⟨x, hx, hx1⟩, ⟨y, hy, hy1⟩⟩ := ih _ d hd
            have hsub : ∀ z ∈ poly.take (i + 1) ++ poly.drop j, z ∈ poly := by
              intro z hz
              rcases List.mem_append.mp hz with h | h
              · exact List.mem_of_mem_take h
              · exact List.mem_of_mem_drop h
            exact ⟨⟨x, hsub x hx, hx1⟩, ⟨y, hsub y hy, hy1⟩⟩
        · simp [splitDiagonals, hshort, hsome, hproper] at hd

theorem collect_of_isSome {α : Type} (l : List (Option α))
    (h : ∀ x ∈ l, x.isSome = true) : ∃ xs, collect l = some xs := by
  induction l with
  | nil => exact ⟨[], rfl⟩
  | cons x l ih =>
    obtain ⟨xs, hxs⟩ := ih (fun y hy => h y (List.mem_cons_of_mem x hy))
    cases x with
    | none => simpa using h none (List.mem_cons_self _ _)
    | some a => exact ⟨a :: xs, by simp [collect, hxs]⟩

/-- The polygon is handed to the finders when every read of a face vertex position passes. -/
theorem facePolygon_of_reads {P : Type} (w : Nat) (dbg : Bool) (intAt : Nat → Int)
    (pointAt : Nat → P) (faceVertexIndices meshVertices : BufferProxy)
    (hreads : ∀ i, i < faceDegree faceVertexIndices meshVertices →
      (faceVertexPosition w dbg intAt pointAt faceVertexIndices meshVertices i).isSome = true) :
    ∃ poly, facePolygon w dbg intAt pointAt faceVertexIndices meshVertices = some poly := by
  apply collect_of_isSome
  intro x hx
  obtain ⟨i, hi, rfl⟩ := List.mem_map.mp hx
  have := hreads i (List.mem_range.mp hi)
  cases hpos : faceVertexPosition w dbg intAt pointAt faceVertexIndices meshVertices i with
  | none => simp [hpos] at this
  | some p => rfl

/-- Without a face index buffer the finders get the polygon that the identity index buffer
gives. -/
theorem facePolygon_identity {P : Type} (w : Nat) (dbg : Bool) (intAt : Nat → Int)
    (pointAt : Nat → P) (noIndices identityIndices meshVertices : BufferProxy)
    (hno : noIndices.IsValid = false) (hvalid : identityIndices.IsValid = true)
    (hcount : identityIndices.Count = meshVertices.Count)
    (hid : ∀ i, i < meshVertices.Count →
      identityIndices.read w dbg intAt i = some ((i : Nat) : Int)) :
    facePolygon w dbg intAt pointAt noIndices meshVertices
      = facePolygon w dbg intAt pointAt identityIndices meshVertices := by
  unfold facePolygon faceDegree
  simp only [hno, hvalid, if_true, hcount, Bool.false_eq_true, if_false]
  congr 1
  apply List.map_congr_left
  intro i hi
  have hi2 := List.mem_range.mp hi
  simp [faceVertexPosition, hno, hvalid, hid i hi2]

/-! ## Facts about the splitting of a polygon at a diagonal -/

/-- C1, evaluated on the code: `IsEmpty()` returns `mNumElements != 0`, so the
default-constructed buffer, whose `Count()` is 0, reports `IsEmpty() = false`, and a buffer
of three elements reports `IsEmpty() = true`. -/
theorem isEmpty_inverted :
    BufferProxy.default.Count = 0 ∧ BufferProxy.default.IsEmpty = false ∧
      (BufferProxy.new 4096 3 12).Count = 3 ∧ (BufferProxy.new 4096 3 12).IsEmpty = true := by
  decide

/-- C2: `IsValid()` is true exactly when the base pointer given to the constructor is
non-null, whatever the element count and the stride are. -/
theorem isValid_iff_data_ne_null (sizeofElement data numElements stride : Nat) :
    ((BufferProxy.new data numElements stride).IsValid = true ↔ data ≠ 0) ∧
      ((BufferProxy.newDefaultStride sizeofElement data numElements).IsValid = true
        ↔ data ≠ 0) := by
  simp [BufferProxy.new, BufferProxy.newDefaultStride, BufferProxy.IsValid]

/-- C3: on a valid buffer and for an index below the count, both `operator[]` overloads
dereference the byte address `base + i * stride` reduced modulo `2 ^ w`. -/
theorem operatorIndex_in_range (w : Nat) (dbg : Bool) (bp : BufferProxy) (i : Nat)
    (hvalid : bp.IsValid = true) (hi : i < bp.Count) :
    bp.operatorIndex w dbg i = Access.deref ((bp.mData + i * bp.mStride) % 2 ^ w) ∧
      bp.operatorIndexConst w dbg i = Access.deref ((bp.mData + i * bp.mStride) % 2 ^ w) := by
  have hcond : DbgAssert dbg (bp.IsValid && decide (i < bp.mNumElements)) = true := by
    have hi2 : i < bp.mNumElements := hi
    simp [DbgAssert, hvalid, hi2]
  constructor
  · simp only [BufferProxy.operatorIndex, hcond, if_true]
    rw [operatorIndex_address]
  · simp only [BufferProxy.operatorIndexConst, hcond, if_true]
    rw [operatorIndex_address]

/-- The in-range access evaluated on a buffer of three elements with stride 12. -/
theorem operatorIndex_in_range_witness :
    (BufferProxy.new 1000 3 12).IsValid = true ∧ 2 < (BufferProxy.new 1000 3 12).Count ∧
      ((BufferProxy.new 1000 3 12).operatorIndex 64 true 2
          = Access.deref (((BufferProxy.new 1000 3 12).mData
              + 2 * (BufferProxy.new 1000 3 12).mStride) % 2 ^ 64) ∧
        (BufferProxy.new 1000 3 12).operatorIndexConst 64 true 2
          = Access.deref (((BufferProxy.new 1000 3 12).mData
              + 2 * (BufferProxy.new 1000 3 12).mStride) % 2 ^ 64)) :=
  ⟨by decide, by decide,
    operatorIndex_in_range 64 true (BufferProxy.new 1000 3 12) 2 (by decide) (by decide)⟩

/-- C4 as stated fails: with assertions compiled out, the access at index 2 of a valid buffer
of 2 elements with stride 4 at address 1000 does not fail; it dereferences address 1008,
which lies past the end `1000 + 2 * 4` of the buffer. -/
theorem operatorIndex_out_of_range_unchecked :
    (BufferProxy.new 1000 2 4).Count ≤ 2 ∧
      (BufferProxy.new 1000 2 4).operatorIndex 64 false 2 = Access.deref 1008 ∧
      (BufferProxy.new 1000 2 4).operatorIndexConst 64 false 2 = Access.deref 1008 ∧
      ¬ (1008 < 1000 + 2 * 4) ∧
      ¬ (∀ (w : Nat) (dbg : Bool) (bp : BufferProxy) (i : Nat), bp.Count ≤ i →
          bp.operatorIndex w dbg i = Access.assertionFailed) := by
  refine ⟨by decide, by decide, by decide, by decide, ?_⟩
  intro h
  have h2 := h 64 false (BufferProxy.new 1000 2 4) 2 (by decide)
  revert h2
  decide

/-- C4 amended: for an index at or beyond the count the asserted condition
`IsValid() && i < mNumElements` is false; with assertions compiled in, both overloads stop
at the assertion, and with assertions compiled out they make no check and dereference the
byte address `base + i * stride` reduced modulo `2 ^ w`. -/
theorem operatorIndex_out_of_range (w : Nat) (bp : BufferProxy) (i : Nat)
    (hi : bp.Count ≤ i) :
    (bp.IsValid && decide (i < bp.Count)) = false ∧
      bp.operatorIndex w true i = Access.assertionFailed ∧
      bp.operatorIndexConst w true i = Access.assertionFailed ∧
      bp.operatorIndex w false i = Access.deref ((bp.mData + i * bp.mStride) % 2 ^ w) ∧
      bp.operatorIndexConst w false i
        = Access.deref ((bp.mData + i * bp.mStride) % 2 ^ w) := by
  have hi2 : ¬ i < bp.mNumElements := Nat.not_lt.mpr hi
  refine ⟨?_, ?_, ?_, ?_, ?_⟩
  · simp [BufferProxy.Count, hi2]
  · simp [BufferProxy.operatorIndex, DbgAssert, hi2]
  · simp [BufferProxy.operatorIndexConst, DbgAssert, hi2]
  · simp only [BufferProxy.operatorIndex, DbgAssert, Bool.not_false, Bool.true_or, if_true]
    rw [operatorIndex_address]
  · simp only [BufferProxy.operatorIndexConst, DbgAssert, Bool.not_false, Bool.true_or, if_true]
    rw [operatorIndex_address]

/-- The out-of-range access evaluated on a buffer of two elements at index 5. -/
theorem operatorIndex_out_of_range_witness :
    (BufferProxy.new 1000 2 4).Count ≤ 5 ∧
      (((BufferProxy.new 1000 2 4).IsValid && decide (5 < (BufferProxy.new 1000 2 4).Count))
          = false ∧
        (BufferProxy.new 1000 2 4).operatorIndex 32 true 5 = Access.assertionFailed ∧
        (BufferProxy.new 1000 2 4).operatorIndexConst 32 true 5 = Access.assertionFailed ∧
        (BufferProxy.new 1000 2 4).operatorIndex 32 false 5
          = Access.deref (((BufferProxy.new 1000 2 4).mData
              + 5 * (BufferProxy.new 1000 2 4).mStride) % 2 ^ 32) ∧
        (BufferProxy.new 1000 2 4).operatorIndexConst 32 false 5
          = Access.deref (((BufferProxy.new 1000 2 4).mData
              + 5 * (BufferProxy.new 1000 2 4).mStride) % 2 ^ 32)) :=
  ⟨by decide, operatorIndex_out_of_range 32 (BufferProxy.new 1000 2 4) 5 (by decide)⟩

/-- C5: the default-constructed buffer has a null base pointer, so `IsValid()` is false,
and its `Count()` and `Stride()` are 0. -/
theorem default_invalid_and_zero :
    BufferProxy.default.mData = 0 ∧ BufferProxy.default.IsValid = false ∧
      BufferProxy.default.Count = 0 ∧ BufferProxy.default.Stride = 0 := by
  decide

/-- C6: `BufferProxy(d, n, s)` has `Count() = n` and `Stride() = s`; with the stride argument
omitted, `Count() = n` and `Stride()` is `sizeof(ElementType)`. -/
theorem constructor_count_stride (sizeofElement d n s : Nat) :
    (BufferProxy.new d n s).Count = n ∧ (BufferProxy.new d n s).Stride = s ∧
      (BufferProxy.newDefaultStride sizeofElement d n).Count = n ∧
      (BufferProxy.newDefaultStride sizeofElement d n).Stride = sizeofElement :=
  ⟨rfl, rfl, rfl, rfl⟩

/-! ## Properties of `SortPolygonDiagonals` -/

/-- C7: for a buffer of `dnum` integers, after `SortPolygonDiagonals` the diagonals are in
ascending order of second index and, for equal second index, in descending order of first
index (for every two positions, not only neighbours); the documented 9-gon list
`(1,3),(0,3),(0,4),(5,7),(4,7),(4,8)` is in this order and the sort leaves it unchanged.
This holds for every `dnum`, even or odd. -/
theorem sortPolygonDiagonals_ordered (dnum : Nat) (diag : List Int)
    (hlen : diag.length = dnum) :
    List.Pairwise (fun p q => p.2 < q.2 ∨ (p.2 = q.2 ∧ q.1 ≤ p.1))
        (toPairs (SortPolygonDiagonals dnum diag)) ∧
      List.Pairwise (fun p q => p.2 < q.2 ∨ (p.2 = q.2 ∧ q.1 ≤ p.1))
        (toPairs nineGonDiagonals) ∧
      toPairs nineGonDiagonals = [(1, 3), (0, 3), (0, 4), (5, 7), (4, 7), (4, 8)] ∧
      SortPolygonDiagonals 12 nineGonDiagonals = nineGonDiagonals := by
  refine ⟨?_, by decide, by decide, by decide⟩
  rw [toPairs_sortPolygonDiagonals dnum diag hlen]
  exact List.sorted_insertionSort diagLE _

/-- The ordering evaluated on the three diagonals `(5,2),(7,0),(2,4)`. -/
theorem sortPolygonDiagonals_ordered_witness :
    [5, 2, 7, 0, 2, 4].length = 6 ∧
      (List.Pairwise (fun p q => p.2 < q.2 ∨ (p.2 = q.2 ∧ q.1 ≤ p.1))
          (toPairs (SortPolygonDiagonals 6 [5, 2, 7, 0, 2, 4])) ∧
        List.Pairwise (fun p q => p.2 < q.2 ∨ (p.2 = q.2 ∧ q.1 ≤ p.1))
          (toPairs nineGonDiagonals) ∧
        toPairs nineGonDiagonals = [(1, 3), (0, 3), (0, 4), (5, 7), (4, 7), (4, 8)] ∧
        SortPolygonDiagonals 12 nineGonDiagonals = nineGonDiagonals) :=
  ⟨by decide, sortPolygonDiagonals_ordered 6 [5, 2, 7, 0, 2, 4] (by decide)⟩

/-- C8: for a buffer of `dnum` integers, after `SortPolygonDiagonals` every diagonal `(a, b)`
in the buffer has `a ≤ b`: the smaller index is stored first. -/
theorem sortPolygonDiagonals_canonical (dnum : Nat) (diag : List Int)
    (hlen : diag.length = dnum) :
    ∀ p ∈ toPairs (SortPolygonDiagonals dnum diag), p.1 ≤ p.2 := by
  rw [toPairs_sortPolygonDiagonals dnum diag hlen]
  exact sorted_canonical_le _

/-- The canonical form evaluated on the three diagonals `(5,2),(7,0),(2,4)`. -/
theorem sortPolygonDiagonals_canonical_witness :
    [5, 2, 7, 0, 2, 4].length = 6 ∧
      ∀ p ∈ toPairs (SortPolygonDiagonals 6 [5, 2, 7, 0, 2, 4]), p.1 ≤ p.2 :=
  ⟨by decide, sortPolygonDiagonals_canonical 6 [5, 2, 7, 0, 2, 4] (by decide)⟩

/-- C9: `SortPolygonDiagonals` is idempotent: sorting the sorted buffer again gives the same
buffer as sorting once. -/
theorem sortPolygonDiagonals_idempotent (dnum : Nat) (diag : List Int) :
    SortPolygonDiagonals dnum (SortPolygonDiagonals dnum diag)
      = SortPolygonDiagonals dnum diag := by
  have hlen : (List.insertionSort diagLE ((pairsOf (dnum / 2) diag).map canonical)).length
      = (pairsOf (dnum / 2) diag).length := by
    rw [List.length_insertionSort, List.length_map]
  obtain ⟨h1, h2⟩ := pairsOf_restOf_flatten_append (dnum / 2)
    (List.insertionSort diagLE ((pairsOf (dnum / 2) diag).map canonical))
    (restOf (dnum / 2) diag)
    (by rw [hlen]; exact pairsOf_length_le _ _)
    (by rw [hlen]; exact pairsOf_full_or_restOf_short _ _)
  have h3 : SortPolygonDiagonals dnum (SortPolygonDiagonals dnum diag)
      = flatten (List.insertionSort diagLE
          ((pairsOf (dnum / 2) (SortPolygonDiagonals dnum diag)).map canonical))
        ++ restOf (dnum / 2) (SortPolygonDiagonals dnum diag) := rfl
  have h4 : SortPolygonDiagonals dnum diag
      = flatten (List.insertionSort diagLE ((pairsOf (dnum / 2) diag).map canonical))
        ++ restOf (dnum / 2) diag := rfl
  rw [h3]
  rw [h4, h1, h2, map_canonical_of_le _ (sorted_canonical_le _),
    List.Sorted.insertionSort_eq (List.sorted_insertionSort diagLE _)]

/-- C10: `SortPolygonDiagonals` only reorders: the multiset of unordered diagonals `{a, b}`
in the buffer after the call is the one before the call, and the buffer keeps its length. -/
theorem sortPolygonDiagonals_reorders (dnum : Nat) (diag : List Int) :
    diagonalSet (SortPolygonDiagonals dnum diag) = diagonalSet diag ∧
      (SortPolygonDiagonals dnum diag).length = diag.length := by
  have hdiag := flatten_pairsOf_append_restOf (dnum / 2) diag
  constructor
  · have hbefore : toPairs diag = pairsOf (dnum / 2) diag ++ toPairs (restOf (dnum / 2) diag) := by
      rw [← toPairs_flatten_append, hdiag]
    have hperm : List.Perm
        ((List.insertionSort diagLE ((pairsOf (dnum / 2) diag).map canonical)).map Sym2.mk)
        ((pairsOf (dnum / 2) diag).map Sym2.mk) := by
      have h1 := (List.perm_insertionSort diagLE ((pairsOf (dnum / 2) diag).map canonical)).map
        Sym2.mk
      have h2 : ((pairsOf (dnum / 2) diag).map canonical).map Sym2.mk
          = (pairsOf (dnum / 2) diag).map Sym2.mk := by
        rw [List.map_map]
        exact List.map_congr_left (fun p _ => sym2_canonical p)
      rw [h2] at h1
      exact h1
    unfold diagonalSet SortPolygonDiagonals
    rw [toPairs_flatten_append, hbefore, List.map_append, List.map_append]
    exact Multiset.coe_eq_coe.mpr (hperm.append_right _)
  · unfold SortPolygonDiagonals
    rw [List.length_append, flatten_length, List.length_insertionSort, List.length_map]
    have h := congrArg List.length hdiag
    rw [List.length_append, flatten_length] at h
    exact h

/-! ## Bounds of the element access -/

/-- C19: on a valid buffer with count `n` and stride `s` at least the element size, whose
base pointer is a machine word and whose backing storage of `n * s` bytes lies in the address
space, for every `i < n` the offset satisfies `i * s + sizeof(ElementType) ≤ n * s`, and both
`operator[]` overloads dereference an address whose element bytes lie inside the backing
storage. -/
theorem operatorIndex_within_storage (w : Nat) (dbg : Bool) (bp : BufferProxy)
    (sizeofElement i : Nat) (hvalid : bp.IsValid = true)
    (hstride : sizeofElement ≤ bp.Stride) (hptr : bp.mData < 2 ^ w)
    (hstorage : bp.mData + bp.Count * bp.Stride ≤ 2 ^ w) (hi : i < bp.Count) :
    i * bp.Stride + sizeofElement ≤ bp.Count * bp.Stride ∧
      ∃ addr, bp.operatorIndex w dbg i = Access.deref addr ∧
        bp.operatorIndexConst w dbg i = Access.deref addr ∧
        bp.mData ≤ addr ∧ addr + sizeofElement ≤ bp.mData + bp.Count * bp.Stride := by
  have hmul : (i + 1) * bp.Stride ≤ bp.Count * bp.Stride := Nat.mul_le_mul_right _ hi
  rw [Nat.add_mul, Nat.one_mul] at hmul
  have hoff : i * bp.Stride + sizeofElement ≤ bp.Count * bp.Stride := by omega
  have hlt : bp.mData + i * bp.mStride < 2 ^ w := by
    have h1 : i * bp.mStride = i * bp.Stride := rfl
    rcases Nat.eq_zero_or_pos bp.Stride with h0 | hpos
    · rw [h1, h0, Nat.mul_zero]; exact hptr
    · omega
  have h1 : i * bp.mStride = i * bp.Stride := rfl
  have hassert : DbgAssert dbg (bp.IsValid && decide (i < bp.mNumElements)) = true :=
    dbgAssert_in_range dbg bp i (by simp [DbgAssert, hvalid]) hi
  refine ⟨hoff, (bp.mData + i * bp.mStride) % 2 ^ w, ?_, ?_, ?_, ?_⟩
  · exact (operatorIndex_of_assert w dbg bp i hassert).1
  · exact (operatorIndex_of_assert w dbg bp i hassert).2
  · rw [Nat.mod_eq_of_lt hlt]
    omega
  · rw [Nat.mod_eq_of_lt hlt]
    omega

/-- The storage bound evaluated on three elements of 12 bytes (stride 16) at address 1000. -/
theorem operatorIndex_within_storage_witness :
    (BufferProxy.new 1000 3 16).IsValid = true ∧ 12 ≤ (BufferProxy.new 1000 3 16).Stride ∧
      (BufferProxy.new 1000 3 16).mData < 2 ^ 64 ∧
      (BufferProxy.new 1000 3 16).mData
        + (BufferProxy.new 1000 3 16).Count * (BufferProxy.new 1000 3 16).Stride ≤ 2 ^ 64 ∧
      2 < (BufferProxy.new 1000 3 16).Count ∧
      (2 * (BufferProxy.new 1000 3 16).Stride + 12
          ≤ (BufferProxy.new 1000 3 16).Count * (BufferProxy.new 1000 3 16).Stride ∧
        ∃ addr, (BufferProxy.new 1000 3 16).operatorIndex 64 true 2 = Access.deref addr ∧
          (BufferProxy.new 1000 3 16).operatorIndexConst 64 true 2 = Access.deref addr ∧
          (BufferProxy.new 1000 3 16).mData ≤ addr ∧
          addr + 12 ≤ (BufferProxy.new 1000 3 16).mData
            + (BufferProxy.new 1000 3 16).Count * (BufferProxy.new 1000 3 16).Stride) :=
  ⟨by decide, by decide, by decide, by decide, by decide,
    operatorIndex_within_storage 64 true (BufferProxy.new 1000 3 16) 12 2
      (by decide) (by decide) (by decide) (by decide) (by decide)⟩

/-- C20: when the validity part of the debug assertion passes, a stride at least the element
size `sizeof(ElementType) > 0` and an extent `n * s` that fits the machine word make the
elements at distinct indices `i ≠ j` below `n` occupy disjoint byte ranges (as intervals and
also byte by byte modulo `2 ^ w`), for both `operator[]` overloads; with stride 0 all indices
below `n` address the same element. -/
theorem operatorIndex_disjoint (w : Nat) (dbg : Bool) (bp : BufferProxy)
    (hassert : DbgAssert dbg bp.IsValid = true) :
    (∀ sizeofElement i j, 0 < sizeofElement → sizeofElement ≤ bp.Stride →
        bp.Count * bp.Stride < 2 ^ w → i < bp.Count → j < bp.Count → i ≠ j →
        ∃ ai aj, bp.operatorIndex w dbg i = Access.deref ai ∧
          bp.operatorIndex w dbg j = Access.deref aj ∧
          bp.operatorIndexConst w dbg i = Access.deref ai ∧
          bp.operatorIndexConst w dbg j = Access.deref aj ∧
          (ai + sizeofElement ≤ aj ∨ aj + sizeofElement ≤ ai) ∧
          ∀ k k2, k < sizeofElement → k2 < sizeofElement →
            (ai + k) % 2 ^ w ≠ (aj + k2) % 2 ^ w) ∧
      (bp.Stride = 0 → ∀ i j, i < bp.Count → j < bp.Count →
        bp.operatorIndex w dbg i = bp.operatorIndex w dbg j ∧
          bp.operatorIndexConst w dbg i = bp.operatorIndexConst w dbg j) := by
  constructor
  · intro sz i j _ hstride hextent hi hj hij
    have hri := operatorIndex_of_assert w dbg bp i (dbgAssert_in_range dbg bp i hassert hi)
    have hrj := operatorIndex_of_assert w dbg bp j (dbgAssert_in_range dbg bp j hassert hj)
    refine ⟨_, _, hri.1, hrj.1, hri.2, hrj.2, ?_⟩
    rcases Nat.lt_or_gt_of_ne hij with hlt | hgt
    · exact strided_addresses_apart (2 ^ w) bp.mData bp.mStride sz bp.mNumElements i j
        hstride hextent hlt hj
    · have h := strided_addresses_apart (2 ^ w) bp.mData bp.mStride sz bp.mNumElements j i
        hstride hextent hgt hi
      exact ⟨h.1.symm, fun k k2 hk hk2 heq => h.2 k2 k hk2 hk heq.symm⟩
  · intro hzero i j hi hj
    have hri := operatorIndex_of_assert w dbg bp i (dbgAssert_in_range dbg bp i hassert hi)
    have hrj := operatorIndex_of_assert w dbg bp j (dbgAssert_in_range dbg bp j hassert hj)
    have hz : bp.mStride = 0 := hzero
    rw [hri.1, hrj.1, hri.2, hrj.2, hz]
    simp

/-- The disjointness evaluated on three elements of 12 bytes with stride 16, and the stride 0
case on a buffer of three elements. -/
theorem operatorIndex_disjoint_witness :
    DbgAssert true (BufferProxy.new 1000 3 16).IsValid = true ∧
      DbgAssert true (BufferProxy.new 1000 3 0).IsValid = true ∧
      (∃ ai aj, (BufferProxy.new 1000 3 16).operatorIndex 64 true 0 = Access.deref ai ∧
          (BufferProxy.new 1000 3 16).operatorIndex 64 true 2 = Access.deref aj ∧
          (BufferProxy.new 1000 3 16).operatorIndexConst 64 true 0 = Access.deref ai ∧
          (BufferProxy.new 1000 3 16).operatorIndexConst 64 true 2 = Access.deref aj ∧
          (ai + 12 ≤ aj ∨ aj + 12 ≤ ai) ∧
          ∀ k k2, k < 12 → k2 < 12 → (ai + k) % 2 ^ 64 ≠ (aj + k2) % 2 ^ 64) ∧
      ((BufferProxy.new 1000 3 0).operatorIndex 64 true 0
          = (BufferProxy.new 1000 3 0).operatorIndex 64 true 2 ∧
        (BufferProxy.new 1000 3 0).operatorIndexConst 64 true 0
          = (BufferProxy.new 1000 3 0).operatorIndexConst 64 true 2) :=
  ⟨by decide, by decide,
    (operatorIndex_disjoint 64 true (BufferProxy.new 1000 3 16) (by decide)).1 12 0 2
      (by decide) (by decide) (by decide) (by decide) (by decide) (by decide),
    (operatorIndex_disjoint 64 true (BufferProxy.new 1000 3 0) (by decide)).2
      (by decide) 0 2 (by decide) (by decide)⟩

end MaxSDK

/-! ## Properties of `fnv1a_hash_bytes` -/

/-- Folding over the offsets of a byte sequence, reading each byte through the pointer, is
folding over the bytes. -/
theorem foldl_range_bufferOf {β : Type} (f : β → Fin 256 → β) (bytes : List (Fin 256))
    (init : β) :
    (List.range bytes.length).foldl (fun state next => f state (bufferOf bytes next)) init
      = bytes.foldl f init := by
  induction bytes generalizing init with
  | nil => rfl
  | cons b bs ih =>
    rw [List.length_cons, List.range_succ_eq_map, List.foldl_cons, List.foldl_map,
      List.foldl_cons]
    exact ih (f init b)

/-- C18: for every byte sequence `fnv1a_hash_bytes` is the FNV-1a reference hash, with offset
basis 14695981039346656037 and prime 1099511628211 modulo `2 ^ 64` under `_WIN64`, and with
offset basis 2166136261 and prime 16777619 modulo `2 ^ 32` otherwise; the single byte `0x61`
hashes to `0xaf63dc4c8601ec8c` on 64 bits (and to `0xe40c292c` on 32 bits). -/
theorem fnv1a_hash_bytes_eq_reference (bytes : List (Fin 256)) :
    fnv1a_hash_bytes true (bufferOf bytes) bytes.length
        = fnv1aReference 64 14695981039346656037 1099511628211 bytes ∧
      fnv1a_hash_bytes false (bufferOf bytes) bytes.length
        = fnv1aReference 32 2166136261 16777619 bytes ∧
      fnv1a_hash_bytes true (bufferOf [0x61]) 1 = 0xaf63dc4c8601ec8c ∧
      fnv1a_hash_bytes false (bufferOf [0x61]) 1 = 0xe40c292c := by
  refine ⟨?_, ?_, by decide, by decide⟩
  · exact foldl_range_bufferOf
      (fun state b => ((state ^^^ b.val) * fnv_prime true) % 2 ^ sizeTBits true) bytes _
  · exact foldl_range_bufferOf
      (fun state b => ((state ^^^ b.val) * fnv_prime false) % 2 ^ sizeTBits false) bytes _



namespace MaxSDK

/-! ## Properties of `GetTriangles` and of the diagonal finders -/

/-- C11: for every face degree `deg ≥ 3` and every diagonal list of `deg - 3` diagonals,
`GetTriangles` leaves the output table with exactly `(deg - 2) * 3` entries, that is
`deg - 2` triangles, whatever the table held before. -/
theorem getTriangles_table_size (deg : Nat) (diag tri : List Int) (hdeg : 3 ≤ deg)
    (_hlen : diag.length = (deg - 3) * 2) :
    (GetTriangles deg diag tri).length = (deg - 2) * 3 ∧
      (toTriples (GetTriangles deg diag tri)).length = deg - 2 := by
  have h := getTriangles_length deg diag tri hdeg
  refine ⟨h, ?_⟩
  rw [toTriples_length, h]
  omega

/-- The table size evaluated on a pentagon with the diagonals `(0,2),(0,3)`. -/
theorem getTriangles_table_size_witness :
    3 ≤ 5 ∧ [(0 : Int), 2, 0, 3].length = (5 - 3) * 2 ∧
      ((GetTriangles 5 [0, 2, 0, 3] [7]).length = (5 - 2) * 3 ∧
        (toTriples (GetTriangles 5 [0, 2, 0, 3] [7])).length = 5 - 2) :=
  ⟨by decide, by decide, getTriangles_table_size 5 [0, 2, 0, 3] [7] (by decide) (by decide)⟩

/-- C13: for every degree `deg ≥ 3` and every valid sorted diagonal list, `GetTriangles` writes
`deg - 2` triangles, and each of them has three pairwise distinct indices in `[0, deg)`. -/
theorem getTriangles_distinct_in_range (deg : Nat) (diag tri : List Int) (hdeg : 3 ≤ deg)
    (hvalid : ValidSortedDiagonals deg diag) :
    (toTriples (GetTriangles deg diag tri)).length = deg - 2 ∧
      ∀ t ∈ toTriples (GetTriangles deg diag tri),
        t.1 ≠ t.2.1 ∧ t.2.1 ≠ t.2.2 ∧ t.1 ≠ t.2.2 ∧
          0 ≤ t.1 ∧ t.1 < (deg : Int) ∧ 0 ≤ t.2.1 ∧ t.2.1 < (deg : Int) ∧
          0 ≤ t.2.2 ∧ t.2.2 < (deg : Int) := by
  obtain ⟨T, hT, rfl⟩ := validSortedDiagonals_triangulation deg diag hdeg hvalid
  rw [getTriangles_of_triangulation deg T tri hdeg hT, toTriples_flattenTriples]
  constructor
  · rw [Triangulation.trianglesFrom_length]
    have := Triangulation.triangleCount_add_one T
    omega
  · intro t ht
    have h := Triangulation.trianglesFrom_bounds 0 T t ht
    push_cast at h
    have hT2 : ((T.span : Nat) : Int) + 1 = (deg : Int) := by exact_mod_cast hT
    omega

/-- The triangles evaluated on the diagonal list documented for a 9-gon, which is a valid
sorted diagonal list. -/
theorem getTriangles_distinct_in_range_witness :
    3 ≤ 9 ∧ ValidSortedDiagonals 9 nineGonDiagonals ∧
      ((toTriples (GetTriangles 9 nineGonDiagonals [])).length = 9 - 2 ∧
        ∀ t ∈ toTriples (GetTriangles 9 nineGonDiagonals []),
          t.1 ≠ t.2.1 ∧ t.2.1 ≠ t.2.2 ∧ t.1 ≠ t.2.2 ∧
            0 ≤ t.1 ∧ t.1 < ((9 : Nat) : Int) ∧ 0 ≤ t.2.1 ∧ t.2.1 < ((9 : Nat) : Int) ∧
            0 ≤ t.2.2 ∧ t.2.2 < ((9 : Nat) : Int)) :=
  ⟨by decide, by decide,
    getTriangles_distinct_in_range 9 nineGonDiagonals [] (by decide) (by decide)⟩

/-- C12: for a polygon of degree 3 whose vertex positions are read, both diagonal finders
write zero diagonals, whatever their geometric tests are, and `GetTriangles` on degree 3 with
the empty diagonal list gives exactly the triangle `(0,1,2)`. -/
theorem degree_three_triangle {P : Type} (w : Nat) (dbg : Bool) (intAt : Nat → Int)
    (pointAt : Nat → P) (pick : List P → Nat × Nat) (findChord : List P → Option (Nat × Nat))
    (faceVertexIndices meshVertices : BufferProxy) (tri : List Int)
    (hdeg : faceDegree faceVertexIndices meshVertices = 3)
    (hreads : ∀ i, i < faceDegree faceVertexIndices meshVertices →
      (faceVertexPosition w dbg intAt pointAt faceVertexIndices meshVertices i).isSome = true) :
    BestConvexDiagonals w dbg intAt pointAt pick faceVertexIndices meshVertices = some [] ∧
      FindDiagonals w dbg intAt pointAt findChord faceVertexIndices meshVertices = some [] ∧
      GetTriangles 3 [] tri = [0, 1, 2] ∧
      toTriples (GetTriangles 3 [] tri) = [(0, 1, 2)] := by
  obtain ⟨poly, hpoly⟩ := facePolygon_of_reads w dbg intAt pointAt _ _ hreads
  have hlen : poly.length ≤ 3 := by
    rw [facePolygon_length w dbg intAt pointAt _ _ poly hpoly, hdeg]
  refine ⟨?_, ?_, rfl, rfl⟩
  · simp [BestConvexDiagonals, hpoly, splitDiagonals_short _ _ poly hlen, flatten]
  · simp [FindDiagonals, hpoly, splitDiagonals_short _ _ poly hlen, flatten]

/-- The degree 3 case evaluated on a triangle given by an identity index buffer. -/
theorem degree_three_triangle_witness :
    faceDegree (BufferProxy.new 4096 3 4) (BufferProxy.new 8192 6 12) = 3 ∧
      (∀ i, i < faceDegree (BufferProxy.new 4096 3 4) (BufferProxy.new 8192 6 12) →
        (faceVertexPosition 64 true identityIndexMemory addressAsPosition
          (BufferProxy.new 4096 3 4) (BufferProxy.new 8192 6 12) i).isSome = true) ∧
      (BestConvexDiagonals 64 true identityIndexMemory addressAsPosition (fun _ => (1, 3))
          (BufferProxy.new 4096 3 4) (BufferProxy.new 8192 6 12) = some [] ∧
        FindDiagonals 64 true identityIndexMemory addressAsPosition (fun _ => some (0, 2))
          (BufferProxy.new 4096 3 4) (BufferProxy.new 8192 6 12) = some [] ∧
        GetTriangles 3 [] [7, 7] = [0, 1, 2] ∧
        toTriples (GetTriangles 3 [] [7, 7]) = [(0, 1, 2)]) :=
  ⟨by decide, by decide,
    degree_three_triangle 64 true identityIndexMemory addressAsPosition (fun _ => (1, 3))
      (fun _ => some (0, 2)) (BufferProxy.new 4096 3 4) (BufferProxy.new 8192 6 12) [7, 7]
      (by decide) (by decide)⟩

/-- C16: for every polygon of degree `deg ≥ 3` whose vertex positions are read, convex or not
and whatever the geometric tests prefer, `BestConvexDiagonals` writes exactly `(deg - 3) * 2`
integers to `diag`, forming `deg - 3` pairs of polygon-local indices, each in `[0, deg)`. -/
theorem bestConvexDiagonals_complete {P : Type} (w : Nat) (dbg : Bool) (intAt : Nat → Int)
    (pointAt : Nat → P) (pick : List P → Nat × Nat)
    (faceVertexIndices meshVertices : BufferProxy)
    (hdeg : 3 ≤ faceDegree faceVertexIndices meshVertices)
    (hreads : ∀ i, i < faceDegree faceVertexIndices meshVertices →
      (faceVertexPosition w dbg intAt pointAt faceVertexIndices meshVertices i).isSome = true) :
    ∃ diag, BestConvexDiagonals w dbg intAt pointAt pick faceVertexIndices meshVertices
        = some diag ∧
      diag.length = (faceDegree faceVertexIndices meshVertices - 3) * 2 ∧
      (toPairs diag).length = faceDegree faceVertexIndices meshVertices - 3 ∧
      ∀ p ∈ toPairs diag,
        0 ≤ p.1 ∧ p.1 < (faceDegree faceVertexIndices meshVertices : Int) ∧
          0 ≤ p.2 ∧ p.2 < (faceDegree faceVertexIndices meshVertices : Int) := by
  obtain ⟨poly, hpoly⟩ := facePolygon_of_reads w dbg intAt pointAt _ _ hreads
  have hlen := facePolygon_length w dbg intAt pointAt _ _ poly hpoly
  have hfst := facePolygon_fst w dbg intAt pointAt _ _ poly hpoly
  have hcount := splitDiagonals_length (convexChoice pick) (convexChoice_proper pick)
    poly.length poly (le_refl _) (by omega)
  have hpairs : toPairs (flatten (splitDiagonals (convexChoice pick) poly.length poly))
      = splitDiagonals (convexChoice pick) poly.length poly := by
    have h := toPairs_flatten_append (splitDiagonals (convexChoice pick) poly.length poly) []
    simpa [toPairs] using h
  refine ⟨flatten (splitDiagonals (convexChoice pick) poly.length poly), ?_, ?_, ?_, ?_⟩
  · simp [BestConvexDiagonals, hpoly]
  · rw [flatten_length, hcount, hlen]; omega
  · rw [hpairs, hcount, hlen]
  · intro p hp
    rw [hpairs] at hp
    obtain ⟨⟨x, hx, hx1⟩, ⟨y, hy, hy1⟩⟩ :=
      splitDiagonals_mem (convexChoice pick) poly.length poly p hp
    have hrange : ∀ z ∈ poly, z.1 < faceDegree faceVertexIndices meshVertices := by
      intro z hz
      have hz1 : z.1 ∈ poly.map Prod.fst := List.mem_map_of_mem Prod.fst hz
      rw [hfst] at hz1
      exact List.mem_range.mp hz1
    have hxr := hrange x hx
    have hyr := hrange y hy
    rw [hx1, hy1]
    omega

/-- The complete diagonal set evaluated on a hexagon given by an identity index buffer. -/
theorem bestConvexDiagonals_complete_witness :
    3 ≤ faceDegree (BufferProxy.new 4096 6 4) (BufferProxy.new 8192 6 12) ∧
      (∀ i, i < faceDegree (BufferProxy.new 4096 6 4) (BufferProxy.new 8192 6 12) →
        (faceVertexPosition 64 true identityIndexMemory addressAsPosition
          (BufferProxy.new 4096 6 4) (BufferProxy.new 8192 6 12) i).isSome = true) ∧
      ∃ diag, BestConvexDiagonals 64 true identityIndexMemory addressAsPosition
          (fun _ => (1, 3)) (BufferProxy.new 4096 6 4) (BufferProxy.new 8192 6 12)
          = some diag ∧
        diag.length = (faceDegree (BufferProxy.new 4096 6 4) (BufferProxy.new 8192 6 12) - 3) * 2 ∧
        (toPairs diag).length
          = faceDegree (BufferProxy.new 4096 6 4) (BufferProxy.new 8192 6 12) - 3 ∧
        ∀ p ∈ toPairs diag,
          0 ≤ p.1 ∧
            p.1 < (faceDegree (BufferProxy.new 4096 6 4) (BufferProxy.new 8192 6 12) : Int) ∧
            0 ≤ p.2 ∧
            p.2 < (faceDegree (BufferProxy.new 4096 6 4) (BufferProxy.new 8192 6 12) : Int) :=
  ⟨by decide, by decide,
    bestConvexDiagonals_complete 64 true identityIndexMemory addressAsPosition
      (fun _ => (1, 3)) (BufferProxy.new 4096 6 4) (BufferProxy.new 8192 6 12)
      (by decide) (by decide)⟩

/-- C17: for every vertex buffer, `BestConvexDiagonals` and `FindDiagonals` called with no
face index buffer (an invalid `BufferProxy`) give the same diagonals as when called with a
valid index buffer of the same count that holds the identity `0, 1, ..., deg - 1`. -/
theorem finders_without_index_buffer {P : Type} (w : Nat) (dbg : Bool) (intAt : Nat → Int)
    (pointAt : Nat → P) (pick : List P → Nat × Nat) (findChord : List P → Option (Nat × Nat))
    (noIndices identityIndices meshVertices : BufferProxy)
    (hno : noIndices.IsValid = false) (hvalid : identityIndices.IsValid = true)
    (hcount : identityIndices.Count = meshVertices.Count)
    (hid : ∀ i, i < meshVertices.Count →
      identityIndices.read w dbg intAt i = some ((i : Nat) : Int)) :
    BestConvexDiagonals w dbg intAt pointAt pick noIndices meshVertices
        = BestConvexDiagonals w dbg intAt pointAt pick identityIndices meshVertices ∧
      FindDiagonals w dbg intAt pointAt findChord noIndices meshVertices
        = FindDiagonals w dbg intAt pointAt findChord identityIndices meshVertices := by
  have h := facePolygon_identity w dbg intAt pointAt noIndices identityIndices meshVertices
    hno hvalid hcount hid
  simp only [BestConvexDiagonals, FindDiagonals, h, and_self]

/-- The two ways of calling the finders evaluated on a hexagon. -/
theorem finders_without_index_buffer_witness :
    BufferProxy.default.IsValid = false ∧ (BufferProxy.new 4096 6 4).IsValid = true ∧
      (BufferProxy.new 4096 6 4).Count = (BufferProxy.new 8192 6 12).Count ∧
      (∀ i, i < (BufferProxy.new 8192 6 12).Count →
        (BufferProxy.new 4096 6 4).read 64 true identityIndexMemory i
          = some ((i : Nat) : Int)) ∧
      (BestConvexDiagonals 64 true identityIndexMemory addressAsPosition (fun _ => (1, 3))
          BufferProxy.default (BufferProxy.new 8192 6 12)
          = BestConvexDiagonals 64 true identityIndexMemory addressAsPosition (fun _ => (1, 3))
            (BufferProxy.new 4096 6 4) (BufferProxy.new 8192 6 12) ∧
        FindDiagonals 64 true identityIndexMemory addressAsPosition (fun _ => some (0, 2))
          BufferProxy.default (BufferProxy.new 8192 6 12)
          = FindDiagonals 64 true identityIndexMemory addressAsPosition (fun _ => some (0, 2))
            (BufferProxy.new 4096 6 4) (BufferProxy.new 8192 6 12)) :=
  ⟨by decide, by decide, by decide, by decide,
    finders_without_index_buffer 64 true identityIndexMemory addressAsPosition
      (fun _ => (1, 3)) (fun _ => some (0, 2)) BufferProxy.default (BufferProxy.new 4096 6 4)
      (BufferProxy.new 8192 6 12) (by decide) (by decide) (by decide) (by decide)⟩

end MaxSDK

/-! ## Further properties of `fnv1a_hash_bytes` -/

theorem fnv1a_hash_bytes_succ (win64 : Bool) (first : Nat → Fin 256) (count : Nat) :
    fnv1a_hash_bytes win64 first (count + 1)
      = ((fnv1a_hash_bytes win64 first count ^^^ (first count).val) * fnv_prime win64)
        % 2 ^ sizeTBits win64 := by
  unfold fnv1a_hash_bytes
  rw [List.range_succ, List.foldl_append]
  rfl

theorem fnv1a_hash_bytes_congr (win64 : Bool) (first first2 : Nat → Fin 256) (count : Nat)
    (h : ∀ i, i < count → first i = first2 i) :
    fnv1a_hash_bytes win64 first count = fnv1a_hash_bytes win64 first2 count := by
  induction count with
  | zero => rfl
  | succ n ih =>
    rw [fnv1a_hash_bytes_succ, fnv1a_hash_bytes_succ,
      ih (fun i hi => h i (Nat.lt_succ_of_lt hi)), h n (Nat.lt_succ_self n)]

theorem bufferOf_append_left (s t : List (Fin 256)) (i : Nat) (hi : i < s.length) :
    bufferOf (s ++ t) i = bufferOf s i := by
  simp [bufferOf, List.getD_eq_getElem?_getD, List.getElem?_append_left hi]

theorem bufferOf_append_length (s : List (Fin 256)) (b : Fin 256) :
    bufferOf (s ++ [b]) s.length = b := by
  simp [bufferOf, List.getD_eq_getElem?_getD]

theorem fnv1a_hash_bytes_append (win64 : Bool) (s : List (Fin 256)) (b : Fin 256) :
    fnv1a_hash_bytes win64 (bufferOf (s ++ [b])) (s ++ [b]).length
      = ((fnv1a_hash_bytes win64 (bufferOf s) s.length ^^^ b.val) * fnv_prime win64)
        % 2 ^ sizeTBits win64 := by
  rw [List.length_append, List.length_singleton, fnv1a_hash_bytes_succ,
    bufferOf_append_length,
    fnv1a_hash_bytes_congr win64 (bufferOf (s ++ [b])) (bufferOf s) s.length
      (fun i hi => bufferOf_append_left s [b] i hi)]

theorem fnv1a_hash_bytes_lt (win64 : Bool) (first : Nat → Fin 256) (count : Nat) :
    fnv1a_hash_bytes win64 first count < 2 ^ sizeTBits win64 := by
  cases count with
  | zero =>
    cases win64
    · show (2166136261 : Nat) < 2 ^ 32
      decide
    · show (14695981039346656037 : Nat) < 2 ^ 64
      decide
  | succ n =>
    rw [fnv1a_hash_bytes_succ]
    exact Nat.mod_lt _ (by positivity)

theorem fnv_prime_coprime (win64 : Bool) :
    Nat.gcd (2 ^ sizeTBits win64) (fnv_prime win64) = 1 := by
  apply Nat.Coprime.pow_left
  cases win64
  · show Nat.Coprime 2 16777619
    norm_num
  · show Nat.Coprime 2 1099511628211
    norm_num

/-- The per-byte step, XOR with the byte and then multiplication by the FNV prime modulo
`2 ^ w`, is injective on states below `2 ^ w`. -/
theorem fnv1a_step_injective (win64 : Bool) (x y b : Nat) (hx : x < 2 ^ sizeTBits win64)
    (hy : y < 2 ^ sizeTBits win64) (hb : b < 2 ^ sizeTBits win64)
    (h : ((x ^^^ b) * fnv_prime win64) % 2 ^ sizeTBits win64
      = ((y ^^^ b) * fnv_prime win64) % 2 ^ sizeTBits win64) : x = y := by
  have hmod : Nat.ModEq (2 ^ sizeTBits win64) (x ^^^ b) (y ^^^ b) :=
    Nat.ModEq.cancel_right_of_coprime (fnv_prime_coprime win64) h
  have heq : x ^^^ b = y ^^^ b :=
    Nat.ModEq.eq_of_lt_of_lt hmod (Nat.xor_lt_two_pow hx hb) (Nat.xor_lt_two_pow hy hb)
  exact Nat.xor_left_injective heq

theorem byte_lt_word (win64 : Bool) (b : Fin 256) : b.val < 2 ^ sizeTBits win64 := by
  have h := b.isLt
  cases win64
  · show b.val < 2 ^ 32
    omega
  · show b.val < 2 ^ 64
    omega

/-- C21: `fnv1a_hash_bytes` is incremental: the hash of a byte sequence followed by a byte `b`
is `((hash of the sequence XOR b) * fnv_prime) mod 2 ^ w`, one more byte of any buffer folds
in the same way, and the hash with `count = 0` is the offset basis. -/
theorem fnv1a_hash_bytes_incremental (win64 : Bool) (s : List (Fin 256)) (b : Fin 256)
    (first : Nat → Fin 256) (count : Nat) :
    fnv1a_hash_bytes win64 (bufferOf (s ++ [b])) (s ++ [b]).length
        = ((fnv1a_hash_bytes win64 (bufferOf s) s.length ^^^ b.val) * fnv_prime win64)
          % 2 ^ sizeTBits win64 ∧
      fnv1a_hash_bytes win64 first (count + 1)
        = ((fnv1a_hash_bytes win64 first count ^^^ (first count).val) * fnv_prime win64)
          % 2 ^ sizeTBits win64 ∧
      fnv1a_hash_bytes win64 first 0 = fnv_offset_basis win64 ∧
      fnv1a_hash_bytes win64 (bufferOf []) ([] : List (Fin 256)).length
        = fnv_offset_basis win64 :=
  ⟨fnv1a_hash_bytes_append win64 s b, fnv1a_hash_bytes_succ win64 first count, rfl, rfl⟩

/-- C22: two byte sequences that differ only in their last byte never have the same hash, and
the per-byte step (XOR with the byte, then multiplication by the odd FNV prime modulo
`2 ^ w`) is injective on the states below `2 ^ w`. -/
theorem fnv1a_last_byte_no_collision (win64 : Bool) (p : List (Fin 256)) (b c : Fin 256)
    (hbc : b ≠ c) :
    fnv1a_hash_bytes win64 (bufferOf (p ++ [b])) (p ++ [b]).length
        ≠ fnv1a_hash_bytes win64 (bufferOf (p ++ [c])) (p ++ [c]).length ∧
      ∀ (x y : Nat) (byte : Fin 256), x < 2 ^ sizeTBits win64 → y < 2 ^ sizeTBits win64 →
        ((x ^^^ byte.val) * fnv_prime win64) % 2 ^ sizeTBits win64
          = ((y ^^^ byte.val) * fnv_prime win64) % 2 ^ sizeTBits win64 → x = y := by
  constructor
  · intro h
    rw [fnv1a_hash_bytes_append, fnv1a_hash_bytes_append] at h
    have hstate := fnv1a_hash_bytes_lt win64 (bufferOf p) p.length
    have hmod : Nat.ModEq (2 ^ sizeTBits win64)
        (fnv1a_hash_bytes win64 (bufferOf p) p.length ^^^ b.val)
        (fnv1a_hash_bytes win64 (bufferOf p) p.length ^^^ c.val) :=
      Nat.ModEq.cancel_right_of_coprime (fnv_prime_coprime win64) h
    have heq := Nat.ModEq.eq_of_lt_of_lt hmod
      (Nat.xor_lt_two_pow hstate (byte_lt_word win64 b))
      (Nat.xor_lt_two_pow hstate (byte_lt_word win64 c))
    exact hbc (Fin.ext (Nat.xor_right_injective heq))
  · intro x y byte hx hy h
    exact fnv1a_step_injective win64 x y byte.val hx hy (byte_lt_word win64 byte) h

/-- The last byte evaluated on the sequences `0x66 0x6f 0x61` and `0x66 0x6f 0x62`. -/
theorem fnv1a_last_byte_no_collision_witness :
    (0x61 : Fin 256) ≠ 0x62 ∧
      (fnv1a_hash_bytes true (bufferOf ([0x66, 0x6f] ++ [0x61])) ([0x66, 0x6f] ++ [0x61]).length
          ≠ fnv1a_hash_bytes true (bufferOf ([0x66, 0x6f] ++ [0x62]))
            ([0x66, 0x6f] ++ [0x62]).length ∧
        ∀ (x y : Nat) (byte : Fin 256), x < 2 ^ sizeTBits true → y < 2 ^ sizeTBits true →
          ((x ^^^ byte.val) * fnv_prime true) % 2 ^ sizeTBits true
            = ((y ^^^ byte.val) * fnv_prime true) % 2 ^ sizeTBits true → x = y) :=
  ⟨by decide, fnv1a_last_byte_no_collision true [0x66, 0x6f] 0x61 0x62 (by decide)⟩

/-- C23: `fnv1a_hash_bytes` depends only on the first `count` bytes: two buffers that agree on
the offsets below `count` give the same hash for that `count`, whatever follows. -/
theorem fnv1a_hash_bytes_prefix_only (win64 : Bool) (first first2 : Nat → Fin 256)
    (count : Nat) (hagree : ∀ i, i < count → first i = first2 i) :
    fnv1a_hash_bytes win64 first count = fnv1a_hash_bytes win64 first2 count :=
  fnv1a_hash_bytes_congr win64 first first2 count hagree

/-- The first three bytes evaluated on two buffers that differ from the fourth byte on. -/
theorem fnv1a_hash_bytes_prefix_only_witness :
    (∀ i, i < 3 → bufferOf [1, 2, 3, 9] i = bufferOf [1, 2, 3, 7, 7] i) ∧
      fnv1a_hash_bytes true (bufferOf [1, 2, 3, 9]) 3
        = fnv1a_hash_bytes true (bufferOf [1, 2, 3, 7, 7]) 3 :=
  ⟨by decide,
    fnv1a_hash_bytes_prefix_only true (bufferOf [1, 2, 3, 9]) (bufferOf [1, 2, 3, 7, 7]) 3
      (by decide)⟩

/-! ## Properties of the `MSPlugin` flags -/

theorem shortToInt_testBit_low (f k : Nat) (hf : f < 2 ^ 16) (hk : k < 16) :
    (shortToInt f).testBit k = f.testBit k := by
  unfold shortToInt
  rw [Nat.mod_eq_of_lt hf]
  split
  · rfl
  · have h : f + (2 ^ 32 - 2 ^ 16) = 2 ^ 16 * (2 ^ 16 - 1) + f := by
      norm_num
      omega
    rw [h, Nat.testBit_mul_pow_two_add _ hf, if_pos hk]

theorem two_testBit (k : Nat) : (2 : Nat).testBit k = decide (k = 1) := by
  have h := @Nat.testBit_two_pow 1 k
  rw [Nat.pow_one] at h
  rw [h]
  by_cases hk : k = 1
  · simp [hk]
  · have hk2 : ¬ 1 = k := fun h1 => hk h1.symm
    simp [hk, hk2]

theorem testBit_of_lt_short (f k : Nat) (hf : f < 2 ^ 16) (hk : 16 ≤ k) :
    f.testBit k = false :=
  Nat.testBit_lt_two_pow (Nat.lt_of_lt_of_le hf (Nat.pow_le_pow_right (by decide) hk))

/-- After `disable()` the flags are the former flags with the bit `MSP_DISABLED` set. -/
theorem MSPlugin.disable_testBit (p : MSPlugin) (hf : p.flags < 2 ^ 16) (k : Nat) :
    p.disable.flags.testBit k = (p.flags.testBit k || decide (k = 1)) := by
  simp only [MSPlugin.disable, intToShort, MSP_DISABLED, Nat.testBit_mod_two_pow,
    Nat.testBit_or, two_testBit]
  by_cases hk : k < 16
  · simp [hk, shortToInt_testBit_low p.flags k hf hk]
  · have hk1 : k ≠ 1 := by omega
    simp [hk, hk1, testBit_of_lt_short p.flags k hf (by omega)]

/-- After `enable()` the flags are the former flags with the bit `MSP_DISABLED` cleared. -/
theorem MSPlugin.enable_testBit (p : MSPlugin) (hf : p.flags < 2 ^ 16) (k : Nat) :
    p.enable.flags.testBit k = (p.flags.testBit k && !decide (k = 1)) := by
  have h2 : (2 : Nat) % 2 ^ 32 = 2 := by norm_num
  simp only [MSPlugin.enable, intToShort, intNot, MSP_DISABLED, Nat.testBit_mod_two_pow,
    Nat.testBit_and, Nat.testBit_xor, Nat.testBit_two_pow_sub_one, two_testBit, h2]
  by_cases hk : k < 16
  · have hk32 : k < 32 := by omega
    simp [hk, hk32, shortToInt_testBit_low p.flags k hf hk]
  · simp [hk, testBit_of_lt_short p.flags k hf (by omega)]

/-- The result of `enabled()` is the negation of the bit `MSP_DISABLED` of the flags. -/
theorem MSPlugin.enabled_eq (p : MSPlugin) (hf : p.flags < 2 ^ 16) :
    p.enabled = !p.flags.testBit 1 := by
  have hand : shortToInt p.flags &&& 2 = if p.flags.testBit 1 then 2 else 0 := by
    apply Nat.eq_of_testBit_eq
    intro i
    rw [Nat.testBit_and, two_testBit]
    by_cases hi : i = 1
    · subst hi
      rw [shortToInt_testBit_low p.flags 1 hf (by decide)]
      cases h1 : p.flags.testBit 1 <;> simp [two_testBit]
    · cases h1 : p.flags.testBit 1 <;> simp [hi, two_testBit]
  simp only [MSPlugin.enabled, MSP_DISABLED, hand]
  cases h1 : p.flags.testBit 1 <;> simp

/-- A mask that does not contain the bit `MSP_DISABLED` sees the same flags when only that
bit is changed. -/
theorem land_mask_of_testBit (x y mask : Nat) (hmask : mask &&& MSP_DISABLED = 0)
    (h : ∀ k, k ≠ 1 → x.testBit k = y.testBit k) : x &&& mask = y &&& mask := by
  apply Nat.eq_of_testBit_eq
  intro i
  rw [Nat.testBit_and, Nat.testBit_and]
  by_cases hi : i = 1
  · subst hi
    have hbit := congrArg (fun z => Nat.testBit z 1) hmask
    simp only [MSP_DISABLED, Nat.testBit_and, two_testBit, Nat.zero_testBit] at hbit
    have hm : mask.testBit 1 = false := by simpa using hbit
    rw [hm, Bool.and_false, Bool.and_false]
  · rw [h i hi]

/-- C24: for every value of the `short` flags, `disable()` makes `enabled()` false and
`enable()` makes `enabled()` true; both leave every flag bit other than `MSP_DISABLED`
unchanged, so every mask without that bit, in particular `MSP_LOADING` and `MSP_DELETED`,
reads the same before and after, and the flags stay a `short`; a freshly constructed
`MSPlugin` (flags 0) is enabled. -/
theorem msplugin_disable_enable (p : MSPlugin) (hflags : p.flags < 2 ^ 16) :
    p.disable.enabled = false ∧ p.enable.enabled = true ∧
      (∀ k, 2 ^ k ≠ MSP_DISABLED → p.disable.flags.testBit k = p.flags.testBit k) ∧
      (∀ k, 2 ^ k ≠ MSP_DISABLED → p.enable.flags.testBit k = p.flags.testBit k) ∧
      (∀ mask, mask &&& MSP_DISABLED = 0 →
        p.disable.flags &&& mask = p.flags &&& mask ∧
          p.enable.flags &&& mask = p.flags &&& mask) ∧
      p.disable.flags &&& MSP_LOADING = p.flags &&& MSP_LOADING ∧
      p.disable.flags &&& MSP_DELETED = p.flags &&& MSP_DELETED ∧
      p.enable.flags &&& MSP_LOADING = p.flags &&& MSP_LOADING ∧
      p.enable.flags &&& MSP_DELETED = p.flags &&& MSP_DELETED ∧
      p.disable.flags < 2 ^ 16 ∧ p.enable.flags < 2 ^ 16 ∧
      MSPlugin.new.flags = 0 ∧ MSPlugin.new.enabled = true := by
  have hd : p.disable.flags < 2 ^ 16 := Nat.mod_lt _ (by decide)
  have he : p.enable.flags < 2 ^ 16 := Nat.mod_lt _ (by decide)
  have hne : ∀ k, 2 ^ k ≠ MSP_DISABLED → k ≠ 1 := by
    intro k hk h1
    subst h1
    exact hk rfl
  have hdbits : ∀ k, k ≠ 1 → p.disable.flags.testBit k = p.flags.testBit k := by
    intro k hk
    rw [MSPlugin.disable_testBit p hflags k]
    simp [hk]
  have hebits : ∀ k, k ≠ 1 → p.enable.flags.testBit k = p.flags.testBit k := by
    intro k hk
    rw [MSPlugin.enable_testBit p hflags k]
    simp [hk]
  refine ⟨?_, ?_, fun k hk => hdbits k (hne k hk), fun k hk => hebits k (hne k hk),
    fun mask hmask => ⟨land_mask_of_testBit _ _ mask hmask hdbits,
      land_mask_of_testBit _ _ mask hmask hebits⟩,
    land_mask_of_testBit _ _ MSP_LOADING (by decide) hdbits,
    land_mask_of_testBit _ _ MSP_DELETED (by decide) hdbits,
    land_mask_of_testBit _ _ MSP_LOADING (by decide) hebits,
    land_mask_of_testBit _ _ MSP_DELETED (by decide) hebits,
    hd, he, rfl, by decide⟩
  · rw [MSPlugin.enabled_eq p.disable hd, MSPlugin.disable_testBit p hflags 1]
    simp
  · rw [MSPlugin.enabled_eq p.enable he, MSPlugin.enable_testBit p hflags 1]
    simp

/-- The flag operations evaluated on the flags `0x8005` (sign bit, `MSP_DELETED` and
`MSP_LOADING` set). -/
theorem msplugin_disable_enable_witness :
    (MSPlugin.mk 0x8005).flags < 2 ^ 16 ∧
      ((MSPlugin.mk 0x8005).disable.enabled = false ∧
        (MSPlugin.mk 0x8005).enable.enabled = true ∧
        (∀ k, 2 ^ k ≠ MSP_DISABLED →
          (MSPlugin.mk 0x8005).disable.flags.testBit k = (MSPlugin.mk 0x8005).flags.testBit k) ∧
        (∀ k, 2 ^ k ≠ MSP_DISABLED →
          (MSPlugin.mk 0x8005).enable.flags.testBit k = (MSPlugin.mk 0x8005).flags.testBit k) ∧
        (∀ mask, mask &&& MSP_DISABLED = 0 →
          (MSPlugin.mk 0x8005).disable.flags &&& mask = (MSPlugin.mk 0x8005).flags &&& mask ∧
            (MSPlugin.mk 0x8005).enable.flags &&& mask
              = (MSPlugin.mk 0x8005).flags &&& mask) ∧
        (MSPlugin.mk 0x8005).disable.flags &&& MSP_LOADING
          = (MSPlugin.mk 0x8005).flags &&& MSP_LOADING ∧
        (MSPlugin.mk 0x8005).disable.flags &&& MSP_DELETED
          = (MSPlugin.mk 0x8005).flags &&& MSP_DELETED ∧
        (MSPlugin.mk 0x8005).enable.flags &&& MSP_LOADING
          = (MSPlugin.mk 0x8005).flags &&& MSP_LOADING ∧
        (MSPlugin.mk 0x8005).enable.flags &&& MSP_DELETED
          = (MSPlugin.mk 0x8005).flags &&& MSP_DELETED ∧
        (MSPlugin.mk 0x8005).disable.flags < 2 ^ 16 ∧
        (MSPlugin.mk 0x8005).enable.flags < 2 ^ 16 ∧
        MSPlugin.new.flags = 0 ∧ MSPlugin.new.enabled = true) :=
  ⟨by decide, msplugin_disable_enable (MSPlugin.mk 0x8005) (by decide)⟩
